import Mathlib

/-!
Shallow embedding of the navigation-bar repository's tree-mutation and
write-planning core, together with proofs about its behaviour.

Conventions of the embedding (JavaScript semantics made explicit):
* Strings model JS strings; a missing/undefined string field is modelled as
  `""` whenever the source only ever observes the field through truthiness
  (`x || y`, `!x`) or equality with a non-empty literal.  The category `icon`
  field is the one field probed with a presence check (`'icon' in unc`), so it
  is modelled as `Option String`.
* `sites`/`children` arrays are modelled as lists; the source coerces a
  missing or non-array value to `[]` at every read (`Array.isArray(x) ? x : []`),
  so an absent array is identified with `[]`.
* `JSON.stringify(a) === JSON.stringify(b)` on normalised site arrays or
  category skeletons is modelled as structural equality of the corresponding
  lists, which agrees with it because the normalised objects have a fixed
  field set in a fixed order.
* JS `Map` built with `new Map(list.map(x => [key x, x]))` keeps the *last*
  entry for a duplicated key; `Map.get` is modelled accordingly.
* `str.trim()` and `str.split('/')` are re-implemented over character lists
  (`jsTrim`, `splitSlash`) so that every definition evaluates by kernel
  reduction.
-/

namespace Nav

/-- JS `a || b` on strings: `a` when truthy (non-empty), else `b`. -/
def jsOr (a b : String) : String := if a = "" then b else a

/-- JS `String.prototype.trim()` over the character list. -/
def jsTrim (s : String) : String :=
  ⟨((s.data.dropWhile Char.isWhitespace).reverse.dropWhile Char.isWhitespace).reverse⟩

/-- Helper for `splitSlash`: split a character list at `'/'`. -/
def splitSlashAux : List Char → List Char → List String
  | [], acc => [⟨acc.reverse⟩]
  | ch :: rest, acc =>
    if ch = '/' then ⟨acc.reverse⟩ :: splitSlashAux rest []
    else splitSlashAux rest (ch :: acc)

/-- JS `str.split('/')`. -/
def splitSlash (s : String) : List String := splitSlashAux s.data []

/-- JS `arr.join('/')`. -/
def joinSlash : List String → String
  | [] => ""
  | [s] => s
  | s :: rest => s ++ "/" ++ joinSlash rest

/-- A leaf link record (`SiteEntry`).  Field order follows the object literals
built in the site handlers: `{title, description, url, icon}` plus the
optionally attached `favicon`. -/
structure Site where
  title : String
  description : String
  url : String
  icon : String
  favicon : Option String
deriving Repr, DecidableEq

/-- One node of the category tree (`CategoryNode`): `id`, `title`, `icon`,
direct `sites` and nested `children`. -/
inductive Cat where
  | mk (id : String) (title : String) (icon : Option String)
       (sites : List Site) (children : List Cat)
deriving Repr

def Cat.id : Cat → String
  | .mk i _ _ _ _ => i

def Cat.title : Cat → String
  | .mk _ t _ _ _ => t

def Cat.icon : Cat → Option String
  | .mk _ _ ic _ _ => ic

def Cat.sites : Cat → List Site
  | .mk _ _ _ s _ => s

def Cat.children : Cat → List Cat
  | .mk _ _ _ _ ch => ch

/-- Replace a node's direct `sites`, keeping everything else. -/
def Cat.withSites : Cat → List Site → Cat
  | .mk i t ic _ ch, s => .mk i t ic s ch

/-- The addressing key `c.id || c.title` used by the save-data walk. -/
def catKey (c : Cat) : String := jsOr c.id c.title

/-! ## `ensureUncategorized` (adminHandler.js, handleSaveAdminData) -/

/-- The reserved-category match `c.id === 'uncategorized' || c.title === '未分类'`. -/
def isUncMatch (c : Cat) : Bool := c.id == "uncategorized" || c.title == "未分类"

/-- The freshly created reserved category
`{ id: 'uncategorized', title: '未分类', icon: '📁', sites: [], children: [] }`. -/
def defaultUnc : Cat := .mk "uncategorized" "未分类" (some "📁") [] []

/-- Field fix-up applied to an existing reserved category: fill falsy
`id`/`title`, add `icon` when the field is absent; the `sites`/`children`
array coercions are invisible in the list model. -/
def normUnc (c : Cat) : Cat :=
  .mk (jsOr c.id "uncategorized") (jsOr c.title "未分类")
      (some (c.icon.getD "📁")) c.sites c.children

/-- Split a root list at its first reserved-category match, normalising the
match: returns `(list without the match, normalised match)`. -/
def ensureUncAux : List Cat → Option (List Cat × Cat)
  | [] => none
  | c :: cs =>
    if isUncMatch c then some (cs, normUnc c)
    else match ensureUncAux cs with
      | none => none
      | some (rest, u) => some (c :: rest, u)

/-- `ensureUncategorized`: create the reserved category if absent, otherwise
normalise it, and move it to the end of the root list. -/
def ensureUncategorized (cats : List Cat) : List Cat :=
  match ensureUncAux cats with
  | none => cats ++ [defaultUnc]
  | some (rest, u) => rest ++ [u]

/-! ## Structure and metadata comparison (`isSameStructure`, `isSameMeta`) -/

mutual
/-- One node of the structural skeleton comparison: `(id||'', title||'')` and
the recursively compared children, ignoring `sites` and `icon`. -/
def sameStructC : Cat → Cat → Bool
  | .mk i t _ _ ch, .mk i' t' _ _ ch' => i == i' && t == t' && sameStructL ch ch'

/-- Ordered structural comparison of two category lists (`isSameStructure`):
JSON equality of the order-preserving `(id,title,children)` normal forms. -/
def sameStructL : List Cat → List Cat → Bool
  | [], [] => true
  | a :: as, b :: bs => sameStructC a b && sameStructL as bs
  | _, _ => false
end

/-- The metadata normal form of `icon`: `c.icon || ''` (absent and falsy both
collapse to `""`). -/
def iconNorm (c : Cat) : String := c.icon.getD ""

mutual
/-- One node of the metadata comparison (`isSameMeta`): `(id, title, icon)`
plus recursively compared children, ignoring `sites`. -/
def sameMetaC : Cat → Cat → Bool
  | .mk i t ic _ ch, .mk i' t' ic' _ ch' =>
    i == i' && t == t' && ic.getD "" == ic'.getD "" && sameMetaL ch ch'

/-- Ordered metadata comparison of two category lists (`isSameMeta`). -/
def sameMetaL : List Cat → List Cat → Bool
  | [], [] => true
  | a :: as, b :: bs => sameMetaC a b && sameMetaL as bs
  | _, _ => false
end

/-! ## The lockstep walk collecting changed site lists -/

/-- One accumulated update `{ segments, node: { sites } }`. -/
structure Upd where
  segments : List String
  sites : List Site
deriving Repr, DecidableEq

/-- `new Map(currCats.map(c => [c.id || c.title, c])).get(k)`: last entry
wins on duplicate keys. -/
def findLastByKey (cats : List Cat) (k : String) : Option Cat :=
  cats.reverse.find? (fun c => catKey c == k)

mutual
/-- The body of the save-data `walk` for one incoming node `nc` against the
current-level list `curr`: look its key up, record an update when the sites
arrays differ, then recurse into the children. -/
def walkDiffsC : Cat → List Cat → List String → List Upd
  | .mk i t _ s ch, curr, segs =>
    match findLastByKey curr (jsOr i t) with
    | none => []
    | some cc =>
      let segs' := segs ++ [t]
      (if cc.sites == s then [] else [⟨segs', s⟩]) ++ walkDiffsL ch cc.children segs'

/-- The save-data `walk` over an incoming list (first argument) against the
current list (second argument), accumulating the title path in `segs`. -/
def walkDiffsL : List Cat → List Cat → List String → List Upd
  | [], _, _ => []
  | nc :: ncs, curr, segs => walkDiffsC nc curr segs ++ walkDiffsL ncs curr segs
end

/-! ## The write plan of `handleSaveAdminData` -/

/-- The four persistence outcomes of a save: full snapshot on structural
change (`mode: 'snapshot'`), full snapshot on metadata change
(`mode: 'snapshot-meta'`), no write (`mode: 'noop'`), and the aggregated
site-list write (`mode: 'bulk-sites'`). -/
inductive Plan where
  | snapshot
  | snapshotMeta
  | noop
  | bulk (updates : List Upd)
deriving Repr, DecidableEq

/-- The write plan computed by `handleSaveAdminData` when a persisted tree
exists: normalise the incoming root list with `ensureUncategorized`, compare
structure, then metadata, then walk for changed site lists. -/
def savePlan (currentCats incomingCats : List Cat) : Plan :=
  let inc := ensureUncategorized incomingCats
  if !(sameStructL currentCats inc) then .snapshot
  else if !(sameMetaL currentCats inc) then .snapshotMeta
  else
    match walkDiffsL inc currentCats [] with
    | [] => .noop
    | us => .bulk us

/-! ## kvStorage.js: reading and rewriting one folder node of the snapshot -/

/-- Resolve a non-empty title path by repeated first-match title lookup
(`cats.find(c => c.title === t)`), as in `getFolderNode`/`updateNode`.
The empty path resolves to no node. -/
def findNodeL : List Cat → List String → Option Cat
  | _, [] => none
  | cats, [t] => cats.find? (fun c => c.title == t)
  | cats, t :: rest =>
    match cats.find? (fun c => c.title == t) with
    | none => none
    | some c => findNodeL c.children rest

/-- The direct `sites` of the node at a title path, `[]` when the path does
not resolve (`getFolderNode`'s fallback node). -/
def folderSites (cats : List Cat) (segs : List String) : List Site :=
  ((findNodeL cats segs).map Cat.sites).getD []

mutual
/-- Set the `sites` of the current node when the remaining path is empty,
else descend into the children (`updateNode`'s action at a matched node). -/
def setSitesC : Cat → List String → List Site → Cat
  | .mk i t ic s ch, rest, sites =>
    match rest with
    | [] => .mk i t ic sites ch
    | r :: rs => .mk i t ic s (setSitesL ch (r :: rs) sites)

/-- `updateNode`: walk a title path by first title match and overwrite the
target node's `sites`; leave the list unchanged when the path fails. -/
def setSitesL : List Cat → List String → List Site → List Cat
  | [], _, _ => []
  | c :: cs, [], _ => c :: cs
  | c :: cs, t :: rest, sites =>
    if c.title == t then setSitesC c rest sites :: cs
    else c :: setSitesL cs (t :: rest) sites
end

/-- `pathKey`: trim the segments, drop empty ones and join with `'/'`. -/
def updKey (u : Upd) : String :=
  joinSlash ((u.segments.map jsTrim).filter (fun s => !(s == "")))

/-- Insert into the deduplication map: an existing key keeps its position and
takes the new value, a new key is appended (JS `Map.set` iteration order). -/
def dedupInsert : List (String × Upd) → String → Upd → List (String × Upd)
  | [], k, u => [(k, u)]
  | (k', u') :: rest, k, u =>
    if k' == k then (k', u) :: rest else (k', u') :: dedupInsert rest k u

/-- The deduplication pass of `putFolderNodesBulk`: same path keeps only the
last update; empty keys are skipped. -/
def dedupUpds (updates : List Upd) : List (String × Upd) :=
  updates.foldl (fun acc u =>
    let k := updKey u
    if k == "" then acc else dedupInsert acc k u) []

/-- `putFolderNodesBulk` applied to an in-memory snapshot: deduplicate, then
for each update re-split its key on `'/'` and overwrite the addressed node's
`sites`; an update whose path fails to resolve leaves the tree unchanged. -/
def applyBulkL (cats : List Cat) (updates : List Upd) : List Cat :=
  (dedupUpds updates).foldl (fun acc ku =>
    let segs := (splitSlash ku.1).filter (fun s => !(s == ""))
    match segs with
    | [] => acc
    | s :: ss => setSitesL acc (s :: ss) ku.2.sites) cats

mutual
/-- Total number of site entries in one category subtree. -/
def totalSitesC : Cat → Nat
  | .mk _ _ _ s ch => s.length + totalSitesL ch

/-- Total number of site entries in a category forest. -/
def totalSitesL : List Cat → Nat
  | [] => 0
  | c :: cs => totalSitesC c + totalSitesL cs
end

/-- What `handleSaveAdminData` persists, as the resulting category list:
with no stored tree the raw payload is written as the initial snapshot;
otherwise the plan decides between the normalised incoming list (snapshot
modes), no write (`none`) and the bulk site-list patch of the stored list. -/
def saveAdminWrite (current : Option (List Cat)) (incoming : List Cat) :
    Option (List Cat) :=
  match current with
  | none => some incoming
  | some cur =>
    let inc := ensureUncategorized incoming
    if !(sameStructL cur inc) then some inc
    else if !(sameMetaL cur inc) then some inc
    else
      match walkDiffsL inc cur [] with
      | [] => none
      | u :: us => some (applyBulkL cur (u :: us))

/-! ## siteHandler: single-site operations -/

/-- Character set ending a hostname inside a URL. -/
def hostEnd (c : Char) : Bool := c == '/' || c == ':' || c == '?' || c == '#'

/-- `new URL(url).hostname` for http/https URLs, `none` when parsing fails.
Hostnames in this model are already lowercase, and `encodeURIComponent` is
the identity on them. -/
def extractHost (url : String) : Option String :=
  let fromRest (rest : List Char) : Option String :=
    match rest.takeWhile (fun c => !hostEnd c) with
    | [] => none
    | h => some ⟨h⟩
  if url.data.take 7 = "http://".data then fromRest (url.data.drop 7)
  else if url.data.take 8 = "https://".data then fromRest (url.data.drop 8)
  else none

/-- The `favicon` field attached to a created or updated site:
`/api/favicon/<host>` whenever the URL yields a host (the fetch-and-cache
attempt returns this same path on success), absent otherwise. -/
def faviconFor (url : String) : Option String :=
  (extractHost url).map (fun h => "/api/favicon/" ++ h)

/-- Outcome of a single-site handler: the HTTP status of the response and the
category list afterwards.  `HTTP_STATUS.CONFLICT` is referenced by the source
but never defined in responseUtils.js, so `createErrorResponse` falls back to
its default status `BAD_REQUEST = 400` on the duplicate branch. -/
structure HandlerOut where
  status : Nat
  cats : List Cat
deriving Repr

/-- `handleAddSite`: validate presence of `categoryId`, `title`, `url` and
`description`; find the root category by id; reject when a direct site shares
the title or the url; otherwise append the new site. -/
def handleAddSite (cats : List Cat)
    (categoryId title url description icon : String) : HandlerOut :=
  if categoryId == "" || title == "" || url == "" || description == "" then
    ⟨400, cats⟩
  else
    match cats.findIdx? (fun c => c.id == categoryId) with
    | none => ⟨404, cats⟩
    | some ci =>
      match cats[ci]? with
      | none => ⟨500, cats⟩
      | some cat =>
        if cat.sites.any (fun s => s.title == title || s.url == url) then
          ⟨400, cats⟩
        else
          let newSite : Site := ⟨title, description, url, jsOr icon "🌐", faviconFor url⟩
          ⟨200, cats.set ci (cat.withSites (cat.sites ++ [newSite]))⟩

/-- `handleMoveSite`: resolve source and target root categories by id and the
site by title, splice it out of the source and push it onto the target
(no duplicate-url check on this path). -/
def handleMoveSite (cats : List Cat)
    (categoryId siteTitle targetCategoryId : String) : HandlerOut :=
  if targetCategoryId == "" then ⟨400, cats⟩
  else
    match cats.findIdx? (fun c => c.id == categoryId) with
    | none => ⟨404, cats⟩
    | some si =>
      match cats.findIdx? (fun c => c.id == targetCategoryId) with
      | none => ⟨404, cats⟩
      | some ti =>
        match cats[si]? with
        | none => ⟨500, cats⟩
        | some src =>
          match src.sites.findIdx? (fun s => s.title == siteTitle) with
          | none => ⟨404, cats⟩
          | some k =>
            match src.sites[k]? with
            | none => ⟨500, cats⟩
            | some site =>
              let cats₁ := cats.set si (src.withSites (src.sites.eraseIdx k))
              match cats₁[ti]? with
              | none => ⟨500, cats₁⟩
              | some tgt =>
                ⟨200, cats₁.set ti (tgt.withSites (tgt.sites ++ [site]))⟩

/-! ## siteHandler: shared helpers of the batch endpoints -/

/-- `normalizeSegments` on an array payload, and likewise the normalisation
applied to a batch item's `titles`: trim each entry and drop empty ones. -/
def normStrs (l : List String) : List String :=
  (l.map jsTrim).filter (fun s => !(s == ""))

/-- `findSiteIndexByUrl`: trim the probe url, fail on empty, else first
index with exact url equality. -/
def findSiteIdxByUrl (sites : List Site) (url : String) : Option Nat :=
  let u := jsTrim url
  if u == "" then none else sites.findIdx? (fun s => s.url == u)

/-- `findSiteIndexByTitle`: trim the probe title, fail on empty, else first
index with exact title equality. -/
def findSiteIdxByTitle (sites : List Site) (title : String) : Option Nat :=
  let t := jsTrim title
  if t == "" then none else sites.findIdx? (fun s => s.title == t)

/-- `canInsertSite` applied to a node's site list and a candidate's url:
the url must be truthy and not already present (after trimming). -/
def canInsertUrl (sites : List Site) (url : String) : Bool :=
  !(url == "") && (findSiteIdxByUrl sites url).isNone

/-- One entry of a batch handler's `pendingMap`: the path key, the segments
it was created from, and the in-memory site list of that folder node. -/
structure PRec where
  key : String
  segs : List String
  sites : List Site
deriving Repr, DecidableEq

/-- `pendingMap.get(key)` (keys are unique, first match). -/
def lookupRec (recs : List PRec) (k : String) : Option PRec :=
  recs.find? (fun r => r.key == k)

/-- Overwrite the in-memory site list of the record with the given key. -/
def updateRec : List PRec → String → List Site → List PRec
  | [], _, _ => []
  | r :: rs, k, s => if r.key == k then ⟨r.key, r.segs, s⟩ :: rs else r :: updateRec rs k s

/-- Fetch the record for a key, creating it from `getFolderNode` when absent;
returns the updated map and the record's current site list. -/
def getOrCreateRec (snapshot : List Cat) (recs : List PRec) (key : String)
    (segs : List String) : List PRec × List Site :=
  match lookupRec recs key with
  | some r => (recs, r.sites)
  | none => (recs ++ [⟨key, segs, folderSites snapshot segs⟩], folderSites snapshot segs)

/-- A pending record as the update handed to `putFolderNodesBulk`. -/
def toUpd (r : PRec) : Upd := ⟨r.segs, r.sites⟩

/-! ## `handleBatchDeleteSites` -/

/-- One item of a batch delete: a folder path and the site titles to drop. -/
structure DelItem where
  path : List String
  titles : List String
deriving Repr

/-- Processing of one batch-delete item: skip when `titles` is empty or the
path key is empty, else filter the folder's in-memory site list by the title
set and add the number of removed entries to the running count. -/
def delStep (snapshot : List Cat) (st : List PRec × Nat) (it : DelItem) :
    List PRec × Nat :=
  let segs := normStrs it.path
  if it.titles.isEmpty then st
  else
    let key := joinSlash segs
    if key == "" then st
    else
      let gc := getOrCreateRec snapshot st.1 key segs
      let titleSet := normStrs it.titles
      let remain := gc.2.filter (fun s => !(titleSet.contains s.title))
      (updateRec gc.1 key remain, st.2 + (gc.2.length - remain.length))

/-- `handleBatchDeleteSites`: fold the items into the pending map, then hand
all records to `putFolderNodesBulk`; returns the reported `deleted` count and
the resulting category list. -/
def batchDeleteSites (snapshot : List Cat) (items : List DelItem) :
    Nat × List Cat :=
  let st := items.foldl (delStep snapshot) ([], 0)
  (st.2, applyBulkL snapshot (st.1.map toUpd))

/-! ## `handleBatchAddSites` (mode `'add'`) -/

/-- One item of a batch add: a folder path and the raw site payload
(missing string fields are `""`). -/
structure AddItem where
  path : List String
  title : String
  url : String
  description : String
  icon : String
deriving Repr

/-- Processing of one batch-add item: skip on empty path key (the record is
created before the site payload is validated); require `title` and `url`;
append the defaulted site when its url can be inserted. -/
def addStep (snapshot : List Cat) (st : List PRec × Nat) (it : AddItem) :
    List PRec × Nat :=
  let segs := normStrs it.path
  let key := joinSlash segs
  if key == "" then st
  else
    let gc := getOrCreateRec snapshot st.1 key segs
    if it.title == "" || it.url == "" then (gc.1, st.2)
    else if canInsertUrl gc.2 it.url then
      let s : Site := ⟨it.title, jsOr it.description "", it.url,
                       jsOr it.icon "🌐", faviconFor it.url⟩
      (updateRec gc.1 key (gc.2 ++ [s]), st.2 + 1)
    else (gc.1, st.2)

/-- `handleBatchAddSites` with `mode: 'add'`: fold the items, then write all
pending records in one bulk pass; returns the reported `added` count and the
resulting category list. -/
def batchAddSites (snapshot : List Cat) (items : List AddItem) :
    Nat × List Cat :=
  let st := items.foldl (addStep snapshot) ([], 0)
  (st.2, applyBulkL snapshot (st.1.map toUpd))

/-! ## `handleBatchMoveSites` -/

/-- One item of a batch move: a source folder path and the site titles to
take out of it. -/
structure MoveItem where
  path : List String
  titles : List String
deriving Repr

/-- Accumulator of the batch-move source phase. -/
structure MvSt where
  recs : List PRec
  moved : List Site
  cnt : Nat
deriving Repr

/-- Source phase of one batch-move item: partition the folder's in-memory
sites into the moved set (collected in order) and the remainder.  Unlike the
other batch handlers there is no empty-key skip before the record is
created. -/
def moveStep (snapshot : List Cat) (st : MvSt) (it : MoveItem) : MvSt :=
  if it.titles.isEmpty then st
  else
    let segs := normStrs it.path
    let key := joinSlash segs
    let gc := getOrCreateRec snapshot st.recs key segs
    let titleSet := normStrs it.titles
    let movedHere := gc.2.filter (fun s => titleSet.contains s.title)
    let remain := gc.2.filter (fun s => !(titleSet.contains s.title))
    ⟨updateRec gc.1 key remain, st.moved ++ movedHere, st.cnt + (gc.2.length - remain.length)⟩

/-- Target phase of a batch move: push each collected site onto the target's
site list unless `canInsertSite` rejects it (duplicate or empty url). -/
def appendMovedFold (tsites : List Site) (moved : List Site) : List Site :=
  moved.foldl (fun acc s => if canInsertUrl acc s.url then acc ++ [s] else acc) tsites

/-- `handleBatchMoveSites`: collect sites out of the source folders, insert
them into the target folder, then write all pending records in one bulk pass;
returns the reported `moved` count and the resulting category list. -/
def batchMoveSites (snapshot : List Cat) (items : List MoveItem)
    (target : List String) : Nat × List Cat :=
  let tsegs := normStrs target
  let st := items.foldl (moveStep snapshot) ⟨[], [], 0⟩
  let tkey := joinSlash tsegs
  let gc := getOrCreateRec snapshot st.recs tkey tsegs
  let tfinal := appendMovedFold gc.2 st.moved
  (st.cnt, applyBulkL snapshot ((updateRec gc.1 tkey tfinal).map toUpd))

/-! ## Admin-UI path resolution (part_000) -/

/-- JS truthiness of a category's `id`. -/
def idTruthy (c : Cat) : Bool := !(c.id == "")

/-- `_resolveTitlePath`'s `pickChild`:
`children.find(c => (c.id && c.id === key) || c.title === key)`. -/
def pickChild (cats : List Cat) (k : String) : Option Cat :=
  cats.find? (fun c => (idTruthy c && c.id == k) || c.title == k)

/-- Continuation of `_resolveTitlePath` below the root: resolve the remaining
keys from a current node, returning the node the path lands on. -/
def resolveAnyFrom (c : Cat) : List String → Option Cat
  | [] => some c
  | k :: ks =>
    match pickChild c.children k with
    | none => none
    | some n => resolveAnyFrom n ks

/-- `_resolveTitlePath` viewed as node resolution: walk an id-or-title path
with `pickChild` from the root list; an empty path resolves to nothing. -/
def resolveAnyNode (cats : List Cat) : List String → Option Cat
  | [] => none
  | k :: ks =>
    match pickChild cats k with
    | none => none
    | some n => resolveAnyFrom n ks

/-- `_findCategoryWithParentByIndex` viewed as node resolution: walk an index
path with bounds checks; an empty path resolves to nothing. -/
def findByIndexPath (cats : List Cat) : List Nat → Option Cat
  | [] => none
  | [i] => cats[i]?
  | i :: j :: rest =>
    match cats[i]? with
    | none => none
    | some c => findByIndexPath c.children (j :: rest)

/-- Root-level match of `_findIndexPathByTitlePath`:
`c.title === t || (c.id || c.title) === t`. -/
def rootTitleIdx (cats : List Cat) (t : String) : Option Nat :=
  cats.findIdx? (fun c => c.title == t || catKey c == t)

/-- Deeper levels of `_findIndexPathByTitlePath`: title-only index lookup
from a current node. -/
def findIndexPathFrom (c : Cat) : List String → Option (List Nat)
  | [] => some []
  | t :: ts =>
    match c.children.findIdx? (fun ch => ch.title == t) with
    | none => none
    | some i =>
      match c.children[i]? with
      | none => none
      | some ch => (findIndexPathFrom ch ts).map (i :: ·)

/-- `_findIndexPathByTitlePath`: resolve a title path to the index path it
denotes, id-or-title at the root and title-only below. -/
def findIndexPathByTitlePath (cats : List Cat) (titles : List String) :
    Option (List Nat) :=
  match titles with
  | [] => none
  | t :: ts =>
    match rootTitleIdx cats t with
    | none => none
    | some i =>
      match cats[i]? with
      | none => none
      | some c => (findIndexPathFrom c ts).map (i :: ·)

/-- The address of kind `f` (title, or id-falling-back-to-title) of the node
reached by an index path. -/
def pathKeysOfIdx (f : Cat → String) (cats : List Cat) :
    List Nat → Option (List String)
  | [] => some []
  | i :: is =>
    match cats[i]? with
    | none => none
    | some c => (pathKeysOfIdx f c.children is).map (f c :: ·)

/-! ## Well-formedness predicates and claim-side scenario builders -/

mutual
/-- Key uniqueness (`c.id || c.title`) inside one subtree's sibling lists. -/
def keysUniqC : Cat → Bool
  | .mk _ _ _ _ ch => keysUniqL ch

/-- Key uniqueness of a sibling list and, recursively, of every subtree. -/
def keysUniqL : List Cat → Bool
  | [] => true
  | c :: cs => cs.all (fun d => !(catKey d == catKey c)) && keysUniqC c && keysUniqL cs
end

/-- Address compatibility of two siblings: distinct titles, distinct truthy
ids, and neither one's truthy id equal to the other's title. -/
def addrCompat (a b : Cat) : Bool :=
  !(a.title == b.title) &&
  (!(idTruthy a && idTruthy b) || !(a.id == b.id)) &&
  (!(idTruthy a) || !(a.id == b.title)) &&
  (!(idTruthy b) || !(b.id == a.title))

mutual
/-- Address well-formedness inside one subtree. -/
def wfAddrC : Cat → Bool
  | .mk _ _ _ _ ch => wfAddrL ch

/-- Address well-formedness of a sibling list and of every subtree below. -/
def wfAddrL : List Cat → Bool
  | [] => true
  | c :: cs => cs.all (addrCompat c) && wfAddrC c && wfAddrL cs
end

mutual
/-- Replace the direct `sites` of the node addressed by the remaining index
path inside one category. -/
def replaceSitesIdxC : Cat → List Nat → List Site → Cat
  | .mk i t ic s ch, rest, S =>
    match rest with
    | [] => .mk i t ic S ch
    | r :: rs => .mk i t ic s (replaceSitesIdxL ch (r :: rs) S)

/-- Replace the direct `sites` of the node addressed by an index path,
leaving every other field and node unchanged (the claim-side description of
a single-folder site-list edit). -/
def replaceSitesIdxL : List Cat → List Nat → List Site → List Cat
  | [], _, _ => []
  | c :: cs, [], _ => c :: cs
  | c :: cs, 0 :: rest, S => replaceSitesIdxC c rest S :: cs
  | c :: cs, (n+1) :: rest, S => c :: replaceSitesIdxL cs (n :: rest) S
end

/-- The direct `sites` of the node addressed by an index path. -/
def sitesAtIdxL (cats : List Cat) (ip : List Nat) : Option (List Site) :=
  (findByIndexPath cats ip).map Cat.sites

/-- The reserved-category invariant claimed for persisted root lists: the
last root category matches the reserved id-or-title probe and carries a
truthy id, a truthy title and an `icon` field. -/
def uncInvariant (l : List Cat) : Bool :=
  match l.getLast? with
  | none => false
  | some u => isUncMatch u && !(u.id == "") && !(u.title == "") && u.icon.isSome

/-- Whether any root category matches the reserved-category probe. -/
def containsUnc (l : List Cat) : Bool := l.any isUncMatch

/-- Number of entries with a given url in a site list. -/
def countUrl (sites : List Site) (u : String) : Nat :=
  (sites.filter (fun s => s.url == u)).length

/-- Level-structured form of "the direct sites of the node at an index
path", used to drive inductions; agrees with `sitesAtIdxL`. -/
def sitesAtPath : List Cat → List Nat → Option (List Site)
  | _, [] => none
  | cats, [i] => (cats[i]?).map Cat.sites
  | cats, i :: j :: rest =>
    match cats[i]? with
    | none => none
    | some c => sitesAtPath c.children (j :: rest)

/-! ## Reflexivity of the structure and metadata comparisons -/

mutual
theorem sameStructC_refl (c : Cat) : sameStructC c c = true := by
  cases c with
  | mk i t ic s ch => simp [sameStructC, sameStructL_refl ch]

theorem sameStructL_refl (l : List Cat) : sameStructL l l = true := by
  cases l with
  | nil => rfl
  | cons c cs => simp [sameStructL, sameStructC_refl c, sameStructL_refl cs]
end

mutual
theorem sameMetaC_refl (c : Cat) : sameMetaC c c = true := by
  cases c with
  | mk i t ic s ch => simp [sameMetaC, sameMetaL_refl ch]

theorem sameMetaL_refl (l : List Cat) : sameMetaL l l = true := by
  cases l with
  | nil => rfl
  | cons c cs => simp [sameMetaL, sameMetaC_refl c, sameMetaL_refl cs]
end

/-! ## Key uniqueness and the lockstep walk on unchanged trees -/

theorem keysUniqL_inj (l : List Cat) (h : keysUniqL l = true) :
    ∀ a ∈ l, ∀ b ∈ l, catKey a = catKey b → a = b := by
  induction l with
  | nil => simp
  | cons c cs ih =>
    simp only [keysUniqL, Bool.and_eq_true, List.all_eq_true] at h
    obtain ⟨⟨h1, _⟩, h3⟩ := h
    intro a ha b hb hk
    rcases List.mem_cons.mp ha with rfl | ha' <;>
      rcases List.mem_cons.mp hb with rfl | hb'
    · rfl
    · exact absurd (beq_iff_eq.mpr hk.symm) (by simpa using h1 b hb')
    · exact absurd (beq_iff_eq.mpr hk) (by simpa using h1 a ha')
    · exact ih h3 a ha' b hb' hk

theorem keysUniqL_mem (l : List Cat) (h : keysUniqL l = true) :
    ∀ c ∈ l, keysUniqC c = true := by
  induction l with
  | nil => simp
  | cons c cs ih =>
    simp only [keysUniqL, Bool.and_eq_true] at h
    intro d hd
    rcases List.mem_cons.mp hd with rfl | hd'
    · exact h.1.2
    · exact ih h.2 d hd'

theorem find?_key_self (l : List Cat) (c : Cat) (hc : c ∈ l)
    (hinj : ∀ a ∈ l, ∀ b ∈ l, catKey a = catKey b → a = b) :
    l.find? (fun d => catKey d == catKey c) = some c := by
  induction l with
  | nil => cases hc
  | cons x xs ih =>
    by_cases hx : catKey x = catKey c
    · have hxc : x = c :=
        hinj x (List.mem_cons_self _ _) c hc hx
      rw [List.find?_cons_of_pos _ (by simp [hx])]
      exact congrArg some hxc
    · have hpc : (catKey x == catKey c) = false := by
        simpa using hx
      rw [List.find?_cons_of_neg _ (by simp [hpc])]
      have hc' : c ∈ xs := by
        rcases List.mem_cons.mp hc with rfl | h'
        · exact absurd rfl hx
        · exact h'
      exact ih hc' (fun a ha b hb => hinj a (List.mem_cons_of_mem _ ha) b (List.mem_cons_of_mem _ hb))

theorem findLast_self (l : List Cat) (c : Cat) (hc : c ∈ l)
    (hinj : ∀ a ∈ l, ∀ b ∈ l, catKey a = catKey b → a = b) :
    findLastByKey l (catKey c) = some c := by
  unfold findLastByKey
  exact find?_key_self l.reverse c (List.mem_reverse.mpr hc)
    (fun a ha b hb => hinj a (List.mem_reverse.mp ha) b (List.mem_reverse.mp hb))

/-- The hypotheses the lockstep walk needs of one level: every node of the
iterated list resolves to itself in the lookup map and has unique keys in its
own subtree. -/
def walkLevelOk (l curr : List Cat) : Prop :=
  ∀ c ∈ l, findLastByKey curr (catKey c) = some c ∧ keysUniqC c = true

theorem walkLevelOk_of_uniq (l : List Cat) (h : keysUniqL l = true) :
    walkLevelOk l l :=
  fun c hc => ⟨findLast_self l c hc (keysUniqL_inj l h), keysUniqL_mem l h c hc⟩

mutual
theorem walkDiffsC_self (c : Cat) (curr : List Cat) (segs : List String)
    (hfind : findLastByKey curr (catKey c) = some c) (hu : keysUniqC c = true) :
    walkDiffsC c curr segs = [] := by
  cases c with
  | mk i t ic s ch =>
    have hk : catKey (Cat.mk i t ic s ch) = jsOr i t := rfl
    rw [hk] at hfind
    have hu' : keysUniqL ch = true := hu
    simp only [walkDiffsC, hfind]
    simp only [Cat.sites, Cat.children, beq_self_eq_true, if_pos rfl, List.nil_append]
    exact walkDiffsL_self ch ch (segs ++ [t]) (walkLevelOk_of_uniq ch hu')

theorem walkDiffsL_self (l curr : List Cat) (segs : List String)
    (h : walkLevelOk l curr) : walkDiffsL l curr segs = [] := by
  cases l with
  | nil => rfl
  | cons c cs =>
    have h1 := h c (List.mem_cons_self _ _)
    rw [walkDiffsL, walkDiffsC_self c curr segs h1.1 h1.2,
      walkDiffsL_self cs curr segs (fun d hd => h d (List.mem_cons_of_mem _ hd))]
    rfl
end

/-! ## Claim C3: the write plan for an unchanged tree -/

/-- C3 (amended): saving a tree identical to the stored one yields plan
`none` provided the root list is invariant under the reserved-category
provisioning and sibling keys (`id || title`) are unique throughout. -/
theorem savePlan_self_noop (T : List Cat)
    (hfix : ensureUncategorized T = T) (hu : keysUniqL T = true) :
    savePlan T T = Plan.noop := by
  simp [savePlan, hfix, sameStructL_refl, sameMetaL_refl,
    walkDiffsL_self T T [] (walkLevelOk_of_uniq T hu)]

/-- Witness for C3: the defaulted reserved category alone. -/
theorem savePlan_self_noop_witness :
    savePlan [defaultUnc] [defaultUnc] = Plan.noop :=
  savePlan_self_noop [defaultUnc] rfl rfl

/-- Counterexample to C3 as stated: for the empty root list the reserved
category is appended to the incoming copy only, so the plan for `(T, T)` is
the full snapshot write, not `none`. -/
theorem savePlan_self_not_noop_empty : savePlan [] [] ≠ Plan.noop := by
  decide

/-! ## Claim C1: structural escalation -/

/-- C1 (amended): whenever the stored list and the incoming list *after*
reserved-category provisioning differ in their recursive `(id, title,
children-order)` skeletons — any added, removed or renamed category, or any
child-list reordering that survives the provisioning — the plan is the full
snapshot write. -/
theorem savePlan_structural_full (cur inc : List Cat)
    (h : sameStructL cur (ensureUncategorized inc) = false) :
    savePlan cur inc = Plan.snapshot := by
  simp only [savePlan, h, Bool.not_false, if_true]

/-- Witness for C1: removing the only real category is a structural change
and yields the snapshot plan. -/
theorem savePlan_structural_full_witness :
    savePlan [Cat.mk "dev" "Dev" none [] [], defaultUnc] [defaultUnc]
      = Plan.snapshot :=
  savePlan_structural_full _ _ rfl

/-- Counterexample to C1 as stated: moving the reserved category from last to
first position is a pure reorder of the root child list, but the provisioning
pass moves it back, so the save of the reordered tree yields plan `none`
rather than the claimed full write. -/
theorem savePlan_reorder_not_full :
    savePlan [Cat.mk "dev" "Dev" none [] [], defaultUnc]
        [defaultUnc, Cat.mk "dev" "Dev" none [] []]
      = Plan.noop := by
  decide

/-! ## Claim C2: minimality of the partial plan -/

theorem sitesAtPath_eq (cats : List Cat) (ip : List Nat) :
    sitesAtPath cats ip = sitesAtIdxL cats ip := by
  match ip with
  | [] => rfl
  | [i] => rfl
  | i :: j :: rest =>
    cases h : cats[i]? with
    | none => simp [sitesAtPath, sitesAtIdxL, findByIndexPath, h]
    | some c =>
      simp only [sitesAtPath, sitesAtIdxL, findByIndexPath, h]
      exact sitesAtPath_eq c.children (j :: rest)

mutual
theorem sameStruct_replaceC (c : Cat) (rest : List Nat) (S : List Site) :
    sameStructC c (replaceSitesIdxC c rest S) = true := by
  cases c with
  | mk i t ic s ch =>
    cases rest with
    | nil => simp [replaceSitesIdxC, sameStructC, sameStructL_refl ch]
    | cons r rs =>
      simp [replaceSitesIdxC, sameStructC, sameStruct_replaceL ch (r :: rs) S]

theorem sameStruct_replaceL (l : List Cat) (ip : List Nat) (S : List Site) :
    sameStructL l (replaceSitesIdxL l ip S) = true := by
  cases l with
  | nil => cases ip <;> rfl
  | cons c cs =>
    cases ip with
    | nil => simp [replaceSitesIdxL, sameStructL_refl]
    | cons n rest =>
      cases n with
      | zero =>
        simp [replaceSitesIdxL, sameStructL, sameStruct_replaceC c rest S,
          sameStructL_refl cs]
      | succ m =>
        simp [replaceSitesIdxL, sameStructL, sameStructC_refl c,
          sameStruct_replaceL cs (m :: rest) S]
end

mutual
theorem sameMeta_replaceC (c : Cat) (rest : List Nat) (S : List Site) :
    sameMetaC c (replaceSitesIdxC c rest S) = true := by
  cases c with
  | mk i t ic s ch =>
    cases rest with
    | nil => simp [replaceSitesIdxC, sameMetaC, sameMetaL_refl ch]
    | cons r rs =>
      simp [replaceSitesIdxC, sameMetaC, sameMeta_replaceL ch (r :: rs) S]

theorem sameMeta_replaceL (l : List Cat) (ip : List Nat) (S : List Site) :
    sameMetaL l (replaceSitesIdxL l ip S) = true := by
  cases l with
  | nil => cases ip <;> rfl
  | cons c cs =>
    cases ip with
    | nil => simp [replaceSitesIdxL, sameMetaL_refl]
    | cons n rest =>
      cases n with
      | zero =>
        simp [replaceSitesIdxL, sameMetaL, sameMeta_replaceC c rest S,
          sameMetaL_refl cs]
      | succ m =>
        simp [replaceSitesIdxL, sameMetaL, sameMetaC_refl c,
          sameMeta_replaceL cs (m :: rest) S]
end

theorem pathKeysOfIdx_cons_succ (f : Cat → String) (c : Cat) (cs : List Cat)
    (n : Nat) (is : List Nat) :
    pathKeysOfIdx f (c :: cs) ((n+1) :: is) = pathKeysOfIdx f cs (n :: is) := by
  simp [pathKeysOfIdx]

theorem sitesAtPath_cons_succ (c : Cat) (cs : List Cat) (n : Nat) (is : List Nat) :
    sitesAtPath (c :: cs) ((n+1) :: is) = sitesAtPath cs (n :: is) := by
  cases is <;> simp [sitesAtPath]

/-- The lockstep walk over a tree whose only difference from the current one
is the replaced site list at one index path produces exactly one update,
addressed by the title path of that node. -/
theorem walk_replace (l curr : List Cat) (ip : List Nat)
    (S oldS : List Site) (tp : List String) (segs : List String)
    (hlv : walkLevelOk l curr)
    (htp : pathKeysOfIdx Cat.title l ip = some tp)
    (hs : sitesAtPath l ip = some oldS)
    (hne : (oldS == S) = false) :
    walkDiffsL (replaceSitesIdxL l ip S) curr segs = [⟨segs ++ tp, S⟩] := by
  match l, ip with
  | [], [] => simp [sitesAtPath] at hs
  | [], i :: is =>
    cases is <;> simp [sitesAtPath] at hs
  | c :: cs, [] => simp [sitesAtPath] at hs
  | c :: cs, 0 :: rest =>
    obtain ⟨i, t, ic, s, ch⟩ := c
    have hself := hlv _ (List.mem_cons_self _ _)
    have hfind : findLastByKey curr (jsOr i t) = some (Cat.mk i t ic s ch) := hself.1
    have hkuniq : keysUniqL ch = true := hself.2
    have htail : walkDiffsL cs curr (segs) = [] :=
      walkDiffsL_self cs curr segs (fun d hd => hlv d (List.mem_cons_of_mem _ hd))
    cases rest with
    | nil =>
      simp only [pathKeysOfIdx, List.getElem?_cons_zero, Cat.title, Cat.children,
        Option.map_some', Option.some.injEq] at htp
      simp only [sitesAtPath, List.getElem?_cons_zero, Cat.sites,
        Option.map_some', Option.some.injEq] at hs
      subst htp
      subst hs
      simp only [replaceSitesIdxL, replaceSitesIdxC, walkDiffsL, walkDiffsC, hfind]
      rw [show (Cat.mk i t ic s ch).children = ch from rfl,
        walkDiffsL_self ch ch (segs ++ [t]) (walkLevelOk_of_uniq ch hkuniq), htail]
      simp [Cat.sites, hne]
    | cons r rs =>
      simp only [pathKeysOfIdx, List.getElem?_cons_zero, Cat.title, Cat.children] at htp
      simp only [sitesAtPath, List.getElem?_cons_zero, Cat.children] at hs
      obtain ⟨tp', htp', rfl⟩ := Option.map_eq_some'.mp htp
      have hrec := walk_replace ch ch (r :: rs) S oldS tp' (segs ++ [t])
        (walkLevelOk_of_uniq ch hkuniq) htp' hs hne
      simp only [replaceSitesIdxL, replaceSitesIdxC, walkDiffsL, walkDiffsC, hfind]
      rw [show (Cat.mk i t ic s ch).children = ch from rfl, hrec, htail]
      simp [Cat.sites]
  | c :: cs, (n+1) :: rest =>
    rw [pathKeysOfIdx_cons_succ] at htp
    rw [sitesAtPath_cons_succ] at hs
    have hhd : walkDiffsC c curr segs = [] :=
      walkDiffsC_self c curr segs (hlv c (List.mem_cons_self _ _)).1
        (hlv c (List.mem_cons_self _ _)).2
    have hrec := walk_replace cs curr (n :: rest) S oldS tp segs
      (fun d hd => hlv d (List.mem_cons_of_mem _ hd)) htp hs hne
    simp only [replaceSitesIdxL, walkDiffsL, hhd, hrec, List.nil_append]

/-- C2 (amended): when the incoming tree is the stored tree with exactly one
category's direct site list replaced by a different one, the plan is the
partial bulk write with exactly one update addressed by that category's title
path — provided sibling keys are unique and the incoming tree is invariant
under the reserved-category provisioning. -/
theorem savePlan_single_change_partial (cur : List Cat) (ip : List Nat)
    (S oldS : List Site) (tp : List String)
    (hu : keysUniqL cur = true)
    (htp : pathKeysOfIdx Cat.title cur ip = some tp)
    (hs : sitesAtIdxL cur ip = some oldS)
    (hne : (oldS == S) = false)
    (hfix : ensureUncategorized (replaceSitesIdxL cur ip S) = replaceSitesIdxL cur ip S) :
    savePlan cur (replaceSitesIdxL cur ip S) = Plan.bulk [⟨tp, S⟩] := by
  have hs' : sitesAtPath cur ip = some oldS := by rw [sitesAtPath_eq]; exact hs
  have hw := walk_replace cur cur ip S oldS tp []
    (walkLevelOk_of_uniq cur hu) htp hs' hne
  simp [savePlan, hfix, sameStruct_replaceL cur ip S, sameMeta_replaceL cur ip S, hw]

/-- Witness for C2: changing the one site of `Dev` in a two-category root
list yields the partial plan updating exactly the path `["Dev"]`. -/
theorem savePlan_single_change_partial_witness :
    savePlan [Cat.mk "dev" "Dev" none [⟨"A", "d", "http://a", "🌐", none⟩] [], defaultUnc]
        (replaceSitesIdxL
          [Cat.mk "dev" "Dev" none [⟨"A", "d", "http://a", "🌐", none⟩] [], defaultUnc]
          [0] [⟨"B", "d", "http://b", "🌐", none⟩])
      = Plan.bulk [⟨["Dev"], [⟨"B", "d", "http://b", "🌐", none⟩]⟩] :=
  savePlan_single_change_partial _ [0] _ [⟨"A", "d", "http://a", "🌐", none⟩]
    ["Dev"] rfl rfl rfl rfl rfl

/-- Counterexample to C2 as stated: a one-site change in a tree that lacks
the reserved category entirely is structure- and metadata-identical between
old and new, yet the provisioning pass appends `Uncategorized` to the
incoming copy only, so the plan is the full snapshot write instead of the
claimed single-update partial plan. -/
theorem savePlan_single_change_not_partial :
    savePlan [Cat.mk "dev" "Dev" none [⟨"A", "d", "http://a", "🌐", none⟩] []]
        [Cat.mk "dev" "Dev" none [⟨"B", "d", "http://b", "🌐", none⟩] []]
      = Plan.snapshot := by
  decide

/-! ## Claim C4: unresolvable title paths in the bulk write -/

mutual
theorem setSitesC_not_found (c : Cat) (rest : List String) (S : List Site)
    (hne : rest ≠ []) (h : findNodeL c.children rest = none) :
    setSitesC c rest S = c := by
  cases c with
  | mk i t ic s ch =>
    cases rest with
    | nil => exact absurd rfl hne
    | cons r rs =>
      have hch : (Cat.mk i t ic s ch).children = ch := rfl
      rw [hch] at h
      simp only [setSitesC]
      rw [setSitesL_not_found ch (r :: rs) S h]

theorem setSitesL_not_found (cats : List Cat) (segs : List String) (S : List Site)
    (h : findNodeL cats segs = none) : setSitesL cats segs S = cats := by
  cases cats with
  | nil => cases segs <;> rfl
  | cons c cs =>
    cases segs with
    | nil => rfl
    | cons t rest =>
      by_cases hc : (c.title == t) = true
      · have hfind : (c :: cs).find? (fun d => d.title == t) = some c :=
          List.find?_cons_of_pos cs hc
        cases rest with
        | nil =>
          rw [show findNodeL (c :: cs) [t] = (c :: cs).find? (fun d => d.title == t) from rfl,
            hfind] at h
          cases h
        | cons r rs =>
          have h' : findNodeL c.children (r :: rs) = none := by
            rw [show findNodeL (c :: cs) (t :: r :: rs)
                = (match (c :: cs).find? (fun d => d.title == t) with
                   | none => none
                   | some d => findNodeL d.children (r :: rs)) from rfl,
              hfind] at h
            exact h
          simp only [setSitesL, hc, if_true]
          rw [setSitesC_not_found c (r :: rs) S (by simp) h']
      · have hc' : (c.title == t) = false := by simpa using hc
        have hfind : (c :: cs).find? (fun d => d.title == t)
            = cs.find? (fun d => d.title == t) :=
          List.find?_cons_of_neg cs (by simp [hc'])
        have h' : findNodeL cs (t :: rest) = none := by
          cases rest with
          | nil =>
            rw [show findNodeL (c :: cs) [t] = (c :: cs).find? (fun d => d.title == t) from rfl,
              hfind] at h
            exact h
          | cons r rs =>
            rw [show findNodeL (c :: cs) (t :: r :: rs)
                = (match (c :: cs).find? (fun d => d.title == t) with
                   | none => none
                   | some d => findNodeL d.children (r :: rs)) from rfl,
              hfind] at h
            exact h
        simp only [setSitesL, hc', Bool.false_eq_true, if_false]
        rw [setSitesL_not_found cs (t :: rest) S h']
end

/-- C4 (amended): an update whose title path does not resolve in the stored
tree is silently skipped by the bulk write: the snapshot is written back with
that node untouched, no error is raised and no full write of the incoming
data happens. -/
theorem applyBulk_unresolved_dropped (cats : List Cat) (u : Upd)
    (h : findNodeL cats ((splitSlash (updKey u)).filter (fun s => !(s == ""))) = none) :
    applyBulkL cats [u] = cats := by
  by_cases hk : (updKey u == "") = true
  · have heq : updKey u = "" := eq_of_beq hk
    have hd : dedupUpds [u] = [] := by
      simp [dedupUpds, heq]
    rw [applyBulkL, hd]
    rfl
  · have hne : updKey u ≠ "" := by simpa using hk
    have hd : dedupUpds [u] = [(updKey u, u)] := by
      simp [dedupUpds, hne, dedupInsert]
    rw [applyBulkL, hd]
    cases hsegs : (splitSlash (updKey u)).filter (fun s => !(s == "")) with
    | nil => simp [hsegs]
    | cons s ss =>
      rw [hsegs] at h
      simp only [List.foldl, hsegs]
      exact setSitesL_not_found cats (s :: ss) u.sites h

/-- Witness for C4's amended form at a concrete input. -/
theorem applyBulk_unresolved_dropped_witness :
    applyBulkL [Cat.mk "a" "A" none [⟨"X", "d", "http://x", "🌐", none⟩] []]
        [⟨["B"], [⟨"Y", "d", "http://y", "🌐", none⟩]⟩]
      = [Cat.mk "a" "A" none [⟨"X", "d", "http://x", "🌐", none⟩] []] :=
  applyBulk_unresolved_dropped _ _ rfl

/-- Counterexample to C4 as stated: applying a bulk update addressed at the
missing category `B` leaves the stored tree exactly as it was — the update's
new site list lands nowhere and no full write of it occurs, i.e. it is
silently dropped. -/
theorem applyBulk_unresolved_not_full :
    applyBulkL [Cat.mk "a" "A" none [] []]
        [⟨["B"], [⟨"Y", "d", "http://y", "🌐", none⟩]⟩]
      = [Cat.mk "a" "A" none [] []] ∧
    totalSitesL (applyBulkL [Cat.mk "a" "A" none [] []]
        [⟨["B"], [⟨"Y", "d", "http://y", "🌐", none⟩]⟩]) = 0 := by
  constructor <;> rfl

/-! ## String infrastructure: trimming and the slash join/split pair -/

theorem dropWhile_dropWhile (p : Char → Bool) (l : List Char) :
    (l.dropWhile p).dropWhile p = l.dropWhile p := by
  induction l with
  | nil => rfl
  | cons a l ih =>
    by_cases h : p a = true
    · simp [List.dropWhile_cons, h, ih]
    · simp only [Bool.not_eq_true] at h
      simp [List.dropWhile_cons, h]

theorem dropWhile_eq_self_of_prefix (p : Char → Bool) (u m : List Char)
    (h : u <+: m) (hm : m.dropWhile p = m) : u.dropWhile p = u := by
  cases u with
  | nil => rfl
  | cons a u' =>
    obtain ⟨t, ht⟩ := h
    by_cases hp : p a = true
    · exfalso
      rw [← ht, List.cons_append, List.dropWhile_cons, if_pos hp] at hm
      have hlen := congrArg List.length hm
      have hle := (List.dropWhile_suffix p (l := u' ++ t)).length_le
      simp only [List.length_cons] at hlen
      omega
    · simp only [Bool.not_eq_true] at hp
      simp [List.dropWhile_cons, hp]

theorem jsTrim_idem (s : String) : jsTrim (jsTrim s) = jsTrim s := by
  have key : ∀ x : List Char,
      (((((x.dropWhile Char.isWhitespace).reverse.dropWhile Char.isWhitespace).reverse
        ).dropWhile Char.isWhitespace).reverse.dropWhile Char.isWhitespace).reverse
      = ((x.dropWhile Char.isWhitespace).reverse.dropWhile Char.isWhitespace).reverse := by
    intro x
    set ws := Char.isWhitespace with hws
    set y := x.dropWhile ws with hy
    set z := y.reverse.dropWhile ws with hz
    have h1 : y.dropWhile ws = y := by rw [hy]; exact dropWhile_dropWhile ws x
    have hsuf : z <:+ y.reverse := by rw [hz]; exact List.dropWhile_suffix ws
    have h2 : z.reverse <+: y := by
      have h2' := List.reverse_prefix.mpr hsuf
      simpa using h2'
    have h3 : z.reverse.dropWhile ws = z.reverse :=
      dropWhile_eq_self_of_prefix ws _ _ h2 h1
    have h4 : z.dropWhile ws = z := by rw [hz]; exact dropWhile_dropWhile ws y.reverse
    rw [h3, List.reverse_reverse, h4]
  unfold jsTrim
  exact congrArg String.mk (key s.data)

theorem normStrs_mem (l : List String) :
    ∀ s ∈ normStrs l, jsTrim s = s ∧ s ≠ "" := by
  intro s hs
  unfold normStrs at hs
  have hf := List.mem_filter.mp hs
  obtain ⟨x, _, rfl⟩ := List.mem_map.mp hf.1
  refine ⟨jsTrim_idem x, ?_⟩
  simpa using hf.2

theorem splitSlashAux_no_slash (l acc : List Char) (h : '/' ∉ l) :
    splitSlashAux l acc = [⟨acc.reverse ++ l⟩] := by
  induction l generalizing acc with
  | nil => simp [splitSlashAux]
  | cons c rest ih =>
    have hc : ¬ c = '/' := fun hc => h (hc ▸ List.mem_cons_self c rest)
    rw [splitSlashAux, if_neg hc, ih (c :: acc) (fun hm => h (List.mem_cons_of_mem _ hm))]
    simp

theorem splitSlashAux_split (l₁ l₂ acc : List Char) (h : '/' ∉ l₁) :
    splitSlashAux (l₁ ++ '/' :: l₂) acc
      = ⟨acc.reverse ++ l₁⟩ :: splitSlashAux l₂ [] := by
  induction l₁ generalizing acc with
  | nil => simp [splitSlashAux]
  | cons c rest ih =>
    have hc : ¬ c = '/' := fun hc => h (hc ▸ List.mem_cons_self c rest)
    rw [List.cons_append, splitSlashAux, if_neg hc,
      ih (c :: acc) (fun hm => h (List.mem_cons_of_mem _ hm))]
    simp

theorem splitSlash_joinSlash (segs : List String) (hne : segs ≠ [])
    (h : ∀ s ∈ segs, '/' ∉ s.data) : splitSlash (joinSlash segs) = segs := by
  induction segs with
  | nil => exact absurd rfl hne
  | cons s rest ih =>
    cases rest with
    | nil =>
      show splitSlashAux s.data [] = [s]
      rw [splitSlashAux_no_slash s.data [] (h s (List.mem_cons_self _ _))]
      rfl
    | cons s' rest' =>
      show splitSlashAux (s ++ "/" ++ joinSlash (s' :: rest')).data [] = s :: s' :: rest'
      have hdata : (s ++ "/" ++ joinSlash (s' :: rest')).data
          = s.data ++ '/' :: (joinSlash (s' :: rest')).data := by
        rw [String.data_append, String.data_append]
        simp [show ("/" : String).data = ['/'] from rfl]
      rw [hdata, splitSlashAux_split _ _ _ (h s (List.mem_cons_self _ _))]
      have := ih (by simp) (fun x hx => h x (List.mem_cons_of_mem _ hx))
      rw [show splitSlashAux (joinSlash (s' :: rest')).data [] = splitSlash (joinSlash (s' :: rest')) from rfl,
        this]
      rfl

theorem joinSlash_ne_empty (segs : List String) (hne : segs ≠ [])
    (hel : ∀ s ∈ segs, s ≠ "") : joinSlash segs ≠ "" := by
  cases segs with
  | nil => exact absurd rfl hne
  | cons s rest =>
    cases rest with
    | nil => exact hel s (List.mem_cons_self _ _)
    | cons s' rest' =>
      intro hcontra
      have := congrArg String.data hcontra
      rw [show joinSlash (s :: s' :: rest') = s ++ "/" ++ joinSlash (s' :: rest') from rfl,
        String.data_append, String.data_append] at this
      simp [show ("/" : String).data = ['/'] from rfl] at this

/-- The cleanliness condition met by every normalised, slash-free segment
list: non-empty, each segment trim-stable, non-empty and without `'/'`. -/
def CleanSegs (segs : List String) : Prop :=
  segs ≠ [] ∧ ∀ s ∈ segs, jsTrim s = s ∧ s ≠ "" ∧ '/' ∉ s.data

theorem cleanSegs_normStrs (raw : List String)
    (hraw : ∀ s ∈ normStrs raw, '/' ∉ s.data) (hne : normStrs raw ≠ []) :
    CleanSegs (normStrs raw) := by
  refine ⟨hne, fun s hs => ?_⟩
  have h1 := normStrs_mem raw s hs
  exact ⟨h1.1, h1.2, hraw s hs⟩

theorem updKey_clean (segs : List String) (sites : List Site)
    (h : CleanSegs segs) : updKey ⟨segs, sites⟩ = joinSlash segs := by
  unfold updKey
  have hmap : segs.map jsTrim = segs := by
    rw [List.map_congr_left (fun s hs => (h.2 s hs).1)]
    exact List.map_id _
  show joinSlash ((segs.map jsTrim).filter fun s => !(s == "")) = _
  rw [hmap, List.filter_eq_self.mpr (fun s hs => by simp [(h.2 s hs).2.1])]

theorem splitKey_clean (segs : List String) (h : CleanSegs segs) :
    (splitSlash (joinSlash segs)).filter (fun s => !(s == "")) = segs := by
  rw [splitSlash_joinSlash segs h.1 (fun s hs => (h.2 s hs).2.2),
    List.filter_eq_self.mpr (fun s hs => by simp [(h.2 s hs).2.1])]

theorem joinSlash_clean_ne (segs : List String) (h : CleanSegs segs) :
    joinSlash segs ≠ "" :=
  joinSlash_ne_empty segs h.1 (fun s hs => (h.2 s hs).2.1)

theorem joinSlash_inj (a b : List String) (ha : CleanSegs a) (hb : CleanSegs b)
    (h : joinSlash a = joinSlash b) : a = b := by
  rw [← splitSlash_joinSlash a ha.1 (fun s hs => (ha.2 s hs).2.2), h,
    splitSlash_joinSlash b hb.1 (fun s hs => (hb.2 s hs).2.2)]

/-! ## Reading and overwriting folder nodes: the get/set laws -/

theorem withSites_title (c : Cat) (S : List Site) : (c.withSites S).title = c.title := by
  cases c; rfl

theorem withSites_children (c : Cat) (S : List Site) :
    (c.withSites S).children = c.children := by
  cases c; rfl

theorem withSites_sites (c : Cat) (S : List Site) : (c.withSites S).sites = S := by
  cases c; rfl

theorem setSitesC_nil (c : Cat) (S : List Site) : setSitesC c [] S = c.withSites S := by
  cases c; rfl

theorem setSitesC_cons_title (c : Cat) (r : String) (rs : List String) (S : List Site) :
    (setSitesC c (r :: rs) S).title = c.title := by
  cases c; rfl

theorem setSitesC_cons_sites (c : Cat) (r : String) (rs : List String) (S : List Site) :
    (setSitesC c (r :: rs) S).sites = c.sites := by
  cases c; rfl

theorem setSitesC_cons_children (c : Cat) (r : String) (rs : List String) (S : List Site) :
    (setSitesC c (r :: rs) S).children = setSitesL c.children (r :: rs) S := by
  cases c; rfl

theorem setSitesL_nil (cats : List Cat) (S : List Site) : setSitesL cats [] S = cats := by
  cases cats <;> rfl

theorem setSitesL_cons_pos (c : Cat) (cs : List Cat) (t : String) (rest : List String)
    (S : List Site) (hc : (c.title == t) = true) :
    setSitesL (c :: cs) (t :: rest) S = setSitesC c rest S :: cs := by
  simp [setSitesL, hc]

theorem setSitesL_cons_neg (c : Cat) (cs : List Cat) (t : String) (rest : List String)
    (S : List Site) (hc : (c.title == t) = false) :
    setSitesL (c :: cs) (t :: rest) S = c :: setSitesL cs (t :: rest) S := by
  simp [setSitesL, hc]

theorem findNodeL_nil (p : List String) : findNodeL [] p = none := by
  cases p with
  | nil => rfl
  | cons t rest => cases rest <;> rfl

theorem findNodeL_cons_pos_nil (c : Cat) (cs : List Cat) (t : String)
    (hc : (c.title == t) = true) : findNodeL (c :: cs) [t] = some c := by
  show (c :: cs).find? (fun d => d.title == t) = some c
  exact List.find?_cons_of_pos cs hc

theorem findNodeL_cons_pos_cons (c : Cat) (cs : List Cat) (t r : String)
    (rs : List String) (hc : (c.title == t) = true) :
    findNodeL (c :: cs) (t :: r :: rs) = findNodeL c.children (r :: rs) := by
  show (match (c :: cs).find? (fun d => d.title == t) with
    | none => none
    | some d => findNodeL d.children (r :: rs)) = _
  rw [List.find?_cons_of_pos cs hc]

theorem findNodeL_cons_neg (c : Cat) (cs : List Cat) (t : String) (rest : List String)
    (hc : (c.title == t) = false) :
    findNodeL (c :: cs) (t :: rest) = findNodeL cs (t :: rest) := by
  cases rest with
  | nil =>
    show (c :: cs).find? (fun d => d.title == t) = cs.find? (fun d => d.title == t)
    exact List.find?_cons_of_neg cs (by simp [hc])
  | cons r rs =>
    show (match (c :: cs).find? (fun d => d.title == t) with
      | none => none
      | some d => findNodeL d.children (r :: rs)) = _
    rw [List.find?_cons_of_neg cs (by simp [hc])]
    rfl

/-- Reading back the overwritten node: after `setSitesL` at a resolvable
path, the node at that path is the original one with its `sites` replaced. -/
theorem findNodeL_set_self (cats : List Cat) (p : List String) (S : List Site)
    (c : Cat) (h : findNodeL cats p = some c) :
    findNodeL (setSitesL cats p S) p = some (c.withSites S) := by
  match cats, p with
  | [], p => rw [findNodeL_nil] at h; cases h
  | c₀ :: cs, [] => cases h
  | c₀ :: cs, t :: rest =>
    by_cases hc : (c₀.title == t) = true
    · cases rest with
      | nil =>
        rw [findNodeL_cons_pos_nil c₀ cs t hc] at h
        injection h with hce
        subst hce
        rw [setSitesL_cons_pos c₀ cs t [] S hc, setSitesC_nil]
        exact findNodeL_cons_pos_nil _ cs t (by rw [withSites_title]; exact hc)
      | cons r rs =>
        rw [findNodeL_cons_pos_cons c₀ cs t r rs hc] at h
        rw [setSitesL_cons_pos c₀ cs t (r :: rs) S hc,
          findNodeL_cons_pos_cons _ cs t r rs (by rw [setSitesC_cons_title]; exact hc),
          setSitesC_cons_children]
        exact findNodeL_set_self c₀.children (r :: rs) S c h
    · have hc' : (c₀.title == t) = false := by simpa using hc
      rw [findNodeL_cons_neg c₀ cs t rest hc'] at h
      rw [setSitesL_cons_neg c₀ cs t rest S hc',
        findNodeL_cons_neg c₀ _ t rest hc']
      exact findNodeL_set_self cs (t :: rest) S c h

/-- Independence of distinct paths: overwriting the sites at `p` does not
change the sites read at any other path `q`. -/
theorem folderSites_set_other (cats : List Cat) (p q : List String) (S : List Site)
    (hpq : p ≠ q) : folderSites (setSitesL cats p S) q = folderSites cats q := by
  match cats, p, q with
  | cats, [], q => rw [setSitesL_nil]
  | [], p, q =>
    rw [show setSitesL ([] : List Cat) p S = [] from by cases p <;> rfl]
  | c :: cs, t :: rest, [] =>
    unfold folderSites
    rw [show findNodeL (setSitesL (c :: cs) (t :: rest) S) [] = none from rfl,
      show findNodeL (c :: cs) [] = none from rfl]
  | c :: cs, t :: rest, t' :: rest' =>
    by_cases hc : (c.title == t) = true
    · rw [setSitesL_cons_pos c cs t rest S hc]
      by_cases hc' : (c.title == t') = true
      · have hct : c.title = t := eq_of_beq hc
        have hct' : c.title = t' := eq_of_beq hc'
        have htt : t = t' := hct ▸ hct'
        cases rest with
        | nil =>
          cases rest' with
          | nil => exact absurd (by rw [htt]) hpq
          | cons r' rs' =>
            rw [setSitesC_nil]
            unfold folderSites
            rw [findNodeL_cons_pos_cons _ cs t' r' rs'
                (by rw [withSites_title]; exact hc'),
              findNodeL_cons_pos_cons c cs t' r' rs' hc', withSites_children]
        | cons r rs =>
          cases rest' with
          | nil =>
            unfold folderSites
            rw [findNodeL_cons_pos_nil _ cs t' (by rw [setSitesC_cons_title]; exact hc'),
              findNodeL_cons_pos_nil c cs t' hc']
            simp only [Option.map_some', Option.getD_some]
            rw [setSitesC_cons_sites]
          | cons r' rs' =>
            unfold folderSites
            rw [findNodeL_cons_pos_cons _ cs t' r' rs'
                (by rw [setSitesC_cons_title]; exact hc'),
              findNodeL_cons_pos_cons c cs t' r' rs' hc', setSitesC_cons_children]
            have hrr : (r :: rs) ≠ (r' :: rs') := by
              intro hr
              exact hpq (by rw [htt, hr])
            exact folderSites_set_other c.children (r :: rs) (r' :: rs') S hrr
      · have hc'' : (c.title == t') = false := by simpa using hc'
        unfold folderSites
        cases rest with
        | nil =>
          rw [setSitesC_nil, findNodeL_cons_neg _ cs t' rest'
              (by rw [withSites_title]; exact hc''),
            findNodeL_cons_neg c cs t' rest' hc'']
        | cons r rs =>
          rw [findNodeL_cons_neg _ cs t' rest'
              (by rw [setSitesC_cons_title]; exact hc''),
            findNodeL_cons_neg c cs t' rest' hc'']
    · have hcf : (c.title == t) = false := by simpa using hc
      rw [setSitesL_cons_neg c cs t rest S hcf]
      by_cases hc' : (c.title == t') = true
      · cases rest' with
        | nil =>
          unfold folderSites
          rw [findNodeL_cons_pos_nil c _ t' hc', findNodeL_cons_pos_nil c cs t' hc']
        | cons r' rs' =>
          unfold folderSites
          rw [findNodeL_cons_pos_cons c _ t' r' rs' hc',
            findNodeL_cons_pos_cons c cs t' r' rs' hc']
      · have hc'' : (c.title == t') = false := by simpa using hc'
        unfold folderSites
        rw [findNodeL_cons_neg c _ t' rest' hc'', findNodeL_cons_neg c cs t' rest' hc'']
        have hrec := folderSites_set_other cs (t :: rest) (t' :: rest') S hpq
        unfold folderSites at hrec
        exact hrec

/-- Site-count bookkeeping of one overwrite at a resolvable path. -/
theorem totalSites_set (cats : List Cat) (p : List String) (S : List Site)
    (c : Cat) (h : findNodeL cats p = some c) :
    totalSitesL (setSitesL cats p S) + c.sites.length
      = totalSitesL cats + S.length := by
  match cats, p with
  | [], p => rw [findNodeL_nil] at h; cases h
  | c₀ :: cs, [] => cases h
  | c₀ :: cs, t :: rest =>
    by_cases hc : (c₀.title == t) = true
    · cases rest with
      | nil =>
        rw [findNodeL_cons_pos_nil c₀ cs t hc] at h
        injection h with hce
        subst hce
        rw [setSitesL_cons_pos c₀ cs t [] S hc, setSitesC_nil]
        cases c₀ with
        | mk i ti ic s ch =>
          show totalSitesC (Cat.mk i ti ic S ch) + totalSitesL cs + s.length
            = totalSitesC (Cat.mk i ti ic s ch) + totalSitesL cs + S.length
          simp [totalSitesC]
          omega
      | cons r rs =>
        rw [findNodeL_cons_pos_cons c₀ cs t r rs hc] at h
        rw [setSitesL_cons_pos c₀ cs t (r :: rs) S hc]
        have ih := totalSites_set c₀.children (r :: rs) S c h
        cases c₀ with
        | mk i ti ic s ch =>
          show totalSitesC (Cat.mk i ti ic s (setSitesL ch (r :: rs) S)) + totalSitesL cs
              + c.sites.length
            = totalSitesC (Cat.mk i ti ic s ch) + totalSitesL cs + S.length
          have ih' : totalSitesL (setSitesL ch (r :: rs) S) + c.sites.length
              = totalSitesL ch + S.length := ih
          simp only [totalSitesC]
          omega
    · have hc' : (c₀.title == t) = false := by simpa using hc
      rw [findNodeL_cons_neg c₀ cs t rest hc'] at h
      rw [setSitesL_cons_neg c₀ cs t rest S hc']
      have ih := totalSites_set cs (t :: rest) S c h
      show totalSitesC c₀ + totalSitesL (setSitesL cs (t :: rest) S) + c.sites.length
        = totalSitesC c₀ + totalSitesL cs + S.length
      omega

/-- Resolvability of a path is unaffected by overwriting sites anywhere. -/
theorem findNode_set_isSome (cats : List Cat) (p q : List String) (S : List Site) :
    (findNodeL (setSitesL cats p S) q).isSome = (findNodeL cats q).isSome := by
  match cats, p, q with
  | cats, [], q => rw [setSitesL_nil]
  | [], p, q =>
    rw [show setSitesL ([] : List Cat) p S = [] from by cases p <;> rfl]
  | c :: cs, t :: rest, [] =>
    rw [show findNodeL (setSitesL (c :: cs) (t :: rest) S) [] = none from rfl,
      show findNodeL (c :: cs) [] = none from rfl]
  | c :: cs, t :: rest, t' :: rest' =>
    by_cases hc : (c.title == t) = true
    · rw [setSitesL_cons_pos c cs t rest S hc]
      by_cases hc' : (c.title == t') = true
      · cases rest with
        | nil =>
          cases rest' with
          | nil =>
            rw [findNodeL_cons_pos_nil _ cs t' (by rw [setSitesC_nil, withSites_title]; exact hc'),
              findNodeL_cons_pos_nil c cs t' hc']
            rfl
          | cons r' rs' =>
            rw [findNodeL_cons_pos_cons _ cs t' r' rs'
                (by rw [setSitesC_nil, withSites_title]; exact hc'),
              findNodeL_cons_pos_cons c cs t' r' rs' hc', setSitesC_nil, withSites_children]
        | cons r rs =>
          cases rest' with
          | nil =>
            rw [findNodeL_cons_pos_nil _ cs t' (by rw [setSitesC_cons_title]; exact hc'),
              findNodeL_cons_pos_nil c cs t' hc']
            rfl
          | cons r' rs' =>
            rw [findNodeL_cons_pos_cons _ cs t' r' rs'
                (by rw [setSitesC_cons_title]; exact hc'),
              findNodeL_cons_pos_cons c cs t' r' rs' hc', setSitesC_cons_children]
            exact findNode_set_isSome c.children (r :: rs) (r' :: rs') S
      · have hc'' : (c.title == t') = false := by simpa using hc'
        cases rest with
        | nil =>
          rw [findNodeL_cons_neg _ cs t' rest' (by rw [setSitesC_nil, withSites_title]; exact hc''),
            findNodeL_cons_neg c cs t' rest' hc'']
        | cons r rs =>
          rw [findNodeL_cons_neg _ cs t' rest' (by rw [setSitesC_cons_title]; exact hc''),
            findNodeL_cons_neg c cs t' rest' hc'']
    · have hcf : (c.title == t) = false := by simpa using hc
      rw [setSitesL_cons_neg c cs t rest S hcf]
      by_cases hc' : (c.title == t') = true
      · cases rest' with
        | nil =>
          rw [findNodeL_cons_pos_nil c _ t' hc', findNodeL_cons_pos_nil c cs t' hc']
        | cons r' rs' =>
          rw [findNodeL_cons_pos_cons c _ t' r' rs' hc',
            findNodeL_cons_pos_cons c cs t' r' rs' hc']
      · have hc'' : (c.title == t') = false := by simpa using hc'
        rw [findNodeL_cons_neg c _ t' rest' hc'', findNodeL_cons_neg c cs t' rest' hc'']
        exact findNode_set_isSome cs (t :: rest) (t' :: rest') S

/-- The per-record application pass of the bulk write. -/
def applyRecs (snapshot : List Cat) (recs : List PRec) : List Cat :=
  recs.foldl (fun acc r => setSitesL acc r.segs r.sites) snapshot

theorem applyRecs_other (snapshot : List Cat) (recs : List PRec) (q : List String)
    (h : ∀ r ∈ recs, r.segs ≠ q) :
    folderSites (applyRecs snapshot recs) q = folderSites snapshot q := by
  induction recs generalizing snapshot with
  | nil => rfl
  | cons r rest ih =>
    show folderSites (applyRecs (setSitesL snapshot r.segs r.sites) rest) q = _
    rw [ih _ (fun r' hr' => h r' (List.mem_cons_of_mem _ hr')),
      folderSites_set_other snapshot r.segs q r.sites (h r (List.mem_cons_self _ _))]

/-- Sum of current in-memory site-list lengths over the pending records. -/
def sumCur (recs : List PRec) : Nat := (recs.map (fun r => r.sites.length)).sum

/-- Sum of the stored site-list lengths addressed by the pending records. -/
def sumOrig (snapshot : List Cat) (recs : List PRec) : Nat :=
  (recs.map (fun r => (folderSites snapshot r.segs).length)).sum

theorem sumOrig_congr (t₁ t₂ : List Cat) (recs : List PRec)
    (h : ∀ r ∈ recs, folderSites t₁ r.segs = folderSites t₂ r.segs) :
    sumOrig t₁ recs = sumOrig t₂ recs := by
  unfold sumOrig
  rw [List.map_congr_left (fun r hr => by rw [h r hr])]

/-- Count bookkeeping and read-back of the record application pass. -/
theorem applyRecs_props (recs : List PRec) (snapshot : List Cat)
    (hdist : (recs.map PRec.key).Pairwise (· ≠ ·))
    (hwf : ∀ r ∈ recs, r.key = joinSlash r.segs ∧ CleanSegs r.segs ∧
      r.sites.length ≤ (folderSites snapshot r.segs).length) :
    (totalSitesL (applyRecs snapshot recs) + sumOrig snapshot recs
      = totalSitesL snapshot + sumCur recs)
    ∧ ∀ r ∈ recs, folderSites (applyRecs snapshot recs) r.segs
        = (if (findNodeL snapshot r.segs).isSome then r.sites else []) := by
  induction recs generalizing snapshot with
  | nil => exact ⟨by simp [applyRecs, sumOrig, sumCur], by simp⟩
  | cons r rest ih =>
    have hwfr := hwf r (List.mem_cons_self _ _)
    have hsegsne : ∀ r' ∈ rest, r'.segs ≠ r.segs := by
      intro r' hr' hcontra
      have hk : r'.key = r.key := by
        rw [(hwf r' (List.mem_cons_of_mem _ hr')).1, hwfr.1, hcontra]
      have := (List.pairwise_cons.mp hdist).1 r'.key (List.mem_map_of_mem PRec.key hr')
      exact this hk.symm
    have happ : applyRecs snapshot (r :: rest)
        = applyRecs (setSitesL snapshot r.segs r.sites) rest := rfl
    set t₁ := setSitesL snapshot r.segs r.sites with ht₁
    have hother : ∀ r' ∈ rest, folderSites t₁ r'.segs = folderSites snapshot r'.segs := by
      intro r' hr'
      exact folderSites_set_other snapshot r.segs r'.segs r.sites
        (fun hcontra => (hsegsne r' hr') hcontra.symm)
    have ih' := ih t₁ (List.pairwise_cons.mp hdist).2
      (fun r' hr' => ⟨(hwf r' (List.mem_cons_of_mem _ hr')).1,
        (hwf r' (List.mem_cons_of_mem _ hr')).2.1,
        by rw [hother r' hr']; exact (hwf r' (List.mem_cons_of_mem _ hr')).2.2⟩)
    constructor
    · -- count bookkeeping
      have hsumOrig : sumOrig t₁ rest = sumOrig snapshot rest := sumOrig_congr _ _ _ hother
      have hsum1 : sumOrig snapshot (r :: rest)
          = (folderSites snapshot r.segs).length + sumOrig snapshot rest := by
        simp [sumOrig]
      have hsum2 : sumCur (r :: rest) = r.sites.length + sumCur rest := by
        simp [sumCur]
      cases hres : findNodeL snapshot r.segs with
      | none =>
        have ht₁' : t₁ = snapshot := by
          rw [ht₁, setSitesL_not_found snapshot r.segs r.sites hres]
        have hzero : r.sites.length = 0 := by
          have := hwfr.2.2
          unfold folderSites at this
          rw [hres] at this
          simpa using this
        have horig0 : (folderSites snapshot r.segs).length = 0 := by
          unfold folderSites
          rw [hres]
          rfl
        rw [ht₁'] at ih'
        have hih := ih'.1
        rw [happ, ht₁', hsum1, hsum2, horig0, hzero]
        omega
      | some c =>
        have hcount := totalSites_set snapshot r.segs r.sites c hres
        rw [← ht₁] at hcount
        have horig : (folderSites snapshot r.segs).length = c.sites.length := by
          unfold folderSites
          rw [hres]
          rfl
        have hih := ih'.1
        rw [hsumOrig] at hih
        rw [happ, hsum1, hsum2, horig]
        omega
    · -- read-back
      intro r' hr'
      rcases List.mem_cons.mp hr' with rfl | hmem
      · have hnotouch : folderSites (applyRecs t₁ rest) r'.segs = folderSites t₁ r'.segs :=
          applyRecs_other t₁ rest r'.segs hsegsne
        rw [happ, hnotouch]
        cases hres : findNodeL snapshot r'.segs with
        | none =>
          have ht₁' : t₁ = snapshot := by
            rw [ht₁, setSitesL_not_found snapshot r'.segs r'.sites hres]
          rw [ht₁']
          unfold folderSites
          rw [hres]
          rfl
        | some c =>
          have := findNodeL_set_self snapshot r'.segs r'.sites c hres
          rw [ht₁]
          unfold folderSites
          rw [this]
          simp [withSites_sites]
      · have hihr := ih'.2 r' hmem
        rw [happ, hihr]
        have := findNode_set_isSome snapshot r.segs r'.segs r.sites
        rw [← ht₁] at this
        rw [this]

/-! ## The deduplication pass on distinct-key updates -/

theorem dedupInsert_new (acc : List (String × Upd)) (k : String) (u : Upd)
    (h : ∀ p ∈ acc, p.1 ≠ k) : dedupInsert acc k u = acc ++ [(k, u)] := by
  induction acc with
  | nil => rfl
  | cons p rest ih =>
    have hp : (p.1 == k) = false := by
      simpa using h p (List.mem_cons_self _ _)
    obtain ⟨p1, p2⟩ := p
    simp only [dedupInsert, hp, Bool.false_eq_true, if_false, List.cons_append]
    rw [ih (fun q hq => h q (List.mem_cons_of_mem _ hq))]

theorem dedupFold_clean (l : List Upd) (acc : List (String × Upd))
    (h1 : ∀ u ∈ l, updKey u ≠ "")
    (h2 : ∀ u ∈ l, ∀ p ∈ acc, p.1 ≠ updKey u)
    (h3 : (l.map updKey).Pairwise (· ≠ ·)) :
    l.foldl (fun acc u =>
      let k := updKey u
      if k == "" then acc else dedupInsert acc k u) acc
      = acc ++ l.map (fun u => (updKey u, u)) := by
  induction l generalizing acc with
  | nil => simp
  | cons u rest ih =>
    have hne : (updKey u == "") = false := by
      simpa using h1 u (List.mem_cons_self _ _)
    simp only [List.foldl, hne, Bool.false_eq_true, if_false]
    rw [dedupInsert_new acc (updKey u) u (fun p hp => h2 u (List.mem_cons_self _ _) p hp)]
    rw [ih (acc ++ [(updKey u, u)])
      (fun v hv => h1 v (List.mem_cons_of_mem _ hv))
      (fun v hv p hp => by
        rcases List.mem_append.mp hp with hp' | hp'
        · exact h2 v (List.mem_cons_of_mem _ hv) p hp'
        · rcases List.mem_singleton.mp hp' with rfl
          have := (List.pairwise_cons.mp h3).1 (updKey v) (List.mem_map_of_mem updKey hv)
          simpa using this)
      (by
        rw [List.map_cons] at h3
        exact (List.pairwise_cons.mp h3).2)]
    simp

theorem dedupUpds_recs (recs : List PRec)
    (hwf : ∀ r ∈ recs, r.key = joinSlash r.segs ∧ CleanSegs r.segs)
    (hdist : (recs.map PRec.key).Pairwise (· ≠ ·)) :
    dedupUpds (recs.map toUpd) = recs.map (fun r => (r.key, toUpd r)) := by
  have hkey : ∀ r ∈ recs, updKey (toUpd r) = r.key := by
    intro r hr
    rw [show toUpd r = ⟨r.segs, r.sites⟩ from rfl,
      updKey_clean r.segs r.sites (hwf r hr).2, (hwf r hr).1]
  have hmapkeys : (recs.map toUpd).map updKey = recs.map PRec.key := by
    rw [List.map_map]
    exact List.map_congr_left (fun r hr => hkey r hr)
  unfold dedupUpds
  rw [dedupFold_clean (recs.map toUpd) []
    (fun u hu => by
      obtain ⟨r, hr, rfl⟩ := List.mem_map.mp hu
      rw [hkey r hr, (hwf r hr).1]
      exact joinSlash_clean_ne r.segs (hwf r hr).2)
    (fun u _ p hp => absurd hp (List.not_mem_nil p))
    (by rw [hmapkeys]; exact hdist)]
  rw [List.nil_append, List.map_map]
  exact List.map_congr_left (fun r hr => by simp [hkey r hr])

/-- With clean, distinct-key records, the bulk write applies exactly the
per-record overwrite pass. -/
theorem applyBulkL_recs (snapshot : List Cat) (recs : List PRec)
    (hwf : ∀ r ∈ recs, r.key = joinSlash r.segs ∧ CleanSegs r.segs)
    (hdist : (recs.map PRec.key).Pairwise (· ≠ ·)) :
    applyBulkL snapshot (recs.map toUpd) = applyRecs snapshot recs := by
  unfold applyBulkL
  rw [dedupUpds_recs recs hwf hdist, List.foldl_map]
  unfold applyRecs
  induction recs generalizing snapshot with
  | nil => rfl
  | cons r rest ih =>
    have hwfr := hwf r (List.mem_cons_self _ _)
    have hsegs : (splitSlash r.key).filter (fun s => !(s == "")) = r.segs := by
      rw [hwfr.1]
      exact splitKey_clean r.segs hwfr.2
    simp only [List.foldl]
    have hstep : (match (splitSlash (r.key, toUpd r).1).filter (fun s => !(s == "")) with
        | [] => snapshot
        | s :: ss => setSitesL snapshot (s :: ss) (r.key, toUpd r).2.sites)
        = setSitesL snapshot r.segs r.sites := by
      show (match (splitSlash r.key).filter (fun s => !(s == "")) with
        | [] => snapshot
        | s :: ss => setSitesL snapshot (s :: ss) (toUpd r).sites) = _
      rw [hsegs]
      cases hkind : r.segs with
      | nil => exact absurd hkind hwfr.2.1
      | cons s ss => rfl
    rw [hstep]
    exact ih (setSitesL snapshot r.segs r.sites)
      (fun r' hr' => hwf r' (List.mem_cons_of_mem _ hr'))
      (List.pairwise_cons.mp (by rw [List.map_cons] at hdist; exact hdist)).2

/-! ## Record-map bookkeeping for the batch handlers -/

theorem lookupRec_cons_pos (r : PRec) (rest : List PRec) (k : String)
    (h : (r.key == k) = true) : lookupRec (r :: rest) k = some r :=
  List.find?_cons_of_pos rest (show ((fun x : PRec => x.key == k) r) = true from h)

theorem lookupRec_cons_neg (r : PRec) (rest : List PRec) (k : String)
    (h : (r.key == k) = false) : lookupRec (r :: rest) k = lookupRec rest k :=
  List.find?_cons_of_neg rest
    (show ¬((fun x : PRec => x.key == k) r) = true from by simp [h])

theorem lookupRec_mem (recs : List PRec) (k : String) (r : PRec)
    (h : lookupRec recs k = some r) : r ∈ recs ∧ r.key = k := by
  refine ⟨List.mem_of_find?_eq_some h, ?_⟩
  have := List.find?_some h
  exact eq_of_beq this

theorem lookupRec_none (recs : List PRec) (k : String)
    (h : lookupRec recs k = none) : ∀ r ∈ recs, r.key ≠ k := by
  intro r hr
  have := List.find?_eq_none.mp h r hr
  simpa using this

theorem updateRec_key_map (recs : List PRec) (k : String) (s' : List Site) :
    (updateRec recs k s').map PRec.key = recs.map PRec.key := by
  induction recs with
  | nil => rfl
  | cons r rest ih =>
    by_cases hr : (r.key == k) = true
    · simp [updateRec, hr]
    · have hr' : (r.key == k) = false := by simpa using hr
      simp [updateRec, hr', ih]

theorem updateRec_mem (recs : List PRec) (k : String) (s' : List Site) :
    ∀ x ∈ updateRec recs k s', x ∈ recs ∨
      ∃ r ∈ recs, (r.key == k) = true ∧ x = ⟨r.key, r.segs, s'⟩ := by
  induction recs with
  | nil => simp [updateRec]
  | cons r rest ih =>
    intro x hx
    by_cases hr : (r.key == k) = true
    · rw [updateRec, if_pos hr] at hx
      rcases List.mem_cons.mp hx with rfl | hx'
      · exact Or.inr ⟨r, List.mem_cons_self _ _, hr, rfl⟩
      · exact Or.inl (List.mem_cons_of_mem _ hx')
    · have hr' : (r.key == k) = false := by simpa using hr
      rw [updateRec, if_neg (by simp [hr'])] at hx
      rcases List.mem_cons.mp hx with rfl | hx'
      · exact Or.inl (List.mem_cons_self _ _)
      · rcases ih x hx' with h' | ⟨r₀, hr₀, hk₀, rfl⟩
        · exact Or.inl (List.mem_cons_of_mem _ h')
        · exact Or.inr ⟨r₀, List.mem_cons_of_mem _ hr₀, hk₀, rfl⟩

theorem updateRec_sumOrig (snapshot : List Cat) (recs : List PRec) (k : String)
    (s' : List Site) : sumOrig snapshot (updateRec recs k s') = sumOrig snapshot recs := by
  induction recs with
  | nil => rfl
  | cons r rest ih =>
    by_cases hr : (r.key == k) = true
    · simp [updateRec, hr, sumOrig]
    · have hr' : (r.key == k) = false := by simpa using hr
      simp only [updateRec, hr', Bool.false_eq_true, if_false]
      simp only [sumOrig, List.map_cons, List.sum_cons] at ih ⊢
      omega

theorem updateRec_sumCur (recs : List PRec) (k : String) (s' : List Site) (r : PRec)
    (h : lookupRec recs k = some r) :
    sumCur (updateRec recs k s') + r.sites.length = sumCur recs + s'.length := by
  induction recs with
  | nil => cases h
  | cons r₀ rest ih =>
    by_cases hr : (r₀.key == k) = true
    · have : r₀ = r := by
        rw [lookupRec_cons_pos r₀ rest k hr] at h
        injection h
      subst this
      simp only [updateRec, hr, if_pos]
      simp [sumCur]
      omega
    · have hr' : (r₀.key == k) = false := by simpa using hr
      have h' : lookupRec rest k = some r := by
        rw [lookupRec_cons_neg r₀ rest k hr'] at h
        exact h
      simp only [updateRec, hr', Bool.false_eq_true, if_false]
      have := ih h'
      simp only [sumCur, List.map_cons, List.sum_cons] at this ⊢
      omega

theorem updateRec_lookup_self (recs : List PRec) (k : String) (s' : List Site)
    (r : PRec) (h : lookupRec recs k = some r) :
    lookupRec (updateRec recs k s') k = some ⟨r.key, r.segs, s'⟩ := by
  induction recs with
  | nil => cases h
  | cons r₀ rest ih =>
    by_cases hr : (r₀.key == k) = true
    · have : r₀ = r := by
        rw [lookupRec_cons_pos r₀ rest k hr] at h
        injection h
      subst this
      rw [updateRec, if_pos hr]
      exact lookupRec_cons_pos _ rest k hr
    · have hr' : (r₀.key == k) = false := by simpa using hr
      have h' : lookupRec rest k = some r := by
        rw [lookupRec_cons_neg r₀ rest k hr'] at h
        exact h
      rw [updateRec, if_neg (by simp [hr']), lookupRec_cons_neg r₀ _ k hr']
      exact ih h'

theorem updateRec_lookup_other (recs : List PRec) (k : String) (s' : List Site)
    (k' : String) (hne : k' ≠ k) :
    lookupRec (updateRec recs k s') k' = lookupRec recs k' := by
  induction recs with
  | nil => rfl
  | cons r rest ih =>
    by_cases hrk : (r.key == k) = true
    · rw [updateRec, if_pos hrk]
      by_cases hrk' : (r.key == k') = true
      · exact absurd (by rw [← eq_of_beq hrk', eq_of_beq hrk]) hne
      · have hrk'' : (r.key == k') = false := by simpa using hrk'
        rw [lookupRec_cons_neg _ rest k' (show ((⟨r.key, r.segs, s'⟩ : PRec).key == k') = false
            from hrk''),
          lookupRec_cons_neg r rest k' hrk'']
    · have hrkf : (r.key == k) = false := by simpa using hrk
      rw [updateRec, if_neg (by simp [hrkf])]
      by_cases hrk' : (r.key == k') = true
      · rw [lookupRec_cons_pos r _ k' hrk', lookupRec_cons_pos r rest k' hrk']
      · have hrk'' : (r.key == k') = false := by simpa using hrk'
        rw [lookupRec_cons_neg r _ k' hrk'', lookupRec_cons_neg r rest k' hrk'']
        exact ih

theorem lookupRec_append_none (recs : List PRec) (x : PRec) (k : String)
    (h : lookupRec recs k = none) (hk : x.key = k) :
    lookupRec (recs ++ [x]) k = some x := by
  induction recs with
  | nil =>
    simp only [List.nil_append]
    exact lookupRec_cons_pos x [] k (by simp [hk])
  | cons r rest ih =>
    have hr : (r.key == k) = false := by
      simpa using lookupRec_none _ _ h r (List.mem_cons_self _ _)
    have h' : lookupRec rest k = none := by
      rw [lookupRec_cons_neg r rest k hr] at h
      exact h
    rw [List.cons_append, lookupRec_cons_neg r _ k hr]
    exact ih h'

theorem lookupRec_append_some (recs l : List PRec) (k : String) (r : PRec)
    (h : lookupRec recs k = some r) : lookupRec (recs ++ l) k = some r := by
  induction recs with
  | nil => cases h
  | cons r₀ rest ih =>
    by_cases hr : (r₀.key == k) = true
    · rw [lookupRec_cons_pos r₀ rest k hr] at h
      rw [List.cons_append, lookupRec_cons_pos r₀ _ k hr]
      exact h
    · have hr' : (r₀.key == k) = false := by simpa using hr
      rw [lookupRec_cons_neg r₀ rest k hr'] at h
      rw [List.cons_append, lookupRec_cons_neg r₀ _ k hr']
      exact ih h

theorem lookupRec_unique (recs : List PRec) (r : PRec) (k : String)
    (hdist : (recs.map PRec.key).Pairwise (· ≠ ·))
    (hr : r ∈ recs) (hk : r.key = k) : lookupRec recs k = some r := by
  induction recs with
  | nil => cases hr
  | cons r₀ rest ih =>
    rw [List.map_cons] at hdist
    rcases List.mem_cons.mp hr with rfl | hmem
    · exact lookupRec_cons_pos r rest k (by simp [hk])
    · have hne : r₀.key ≠ k := by
        intro hcontra
        have := (List.pairwise_cons.mp hdist).1 r.key (List.mem_map_of_mem PRec.key hmem)
        rw [hcontra, hk] at this
        exact this rfl
      rw [lookupRec_cons_neg r₀ rest k (by simpa using hne)]
      exact ih (List.pairwise_cons.mp hdist).2 hmem

/-- Well-formedness and count bookkeeping carried through the batch folds:
pairwise-distinct keys, per-record key/segment/length facts, and that the
running count plus the current in-memory lengths equals the stored lengths. -/
def DelInv (snapshot : List Cat) (st : List PRec × Nat) : Prop :=
  ((st.1.map PRec.key).Pairwise (· ≠ ·)) ∧
  (∀ r ∈ st.1, r.key = joinSlash r.segs ∧ CleanSegs r.segs ∧
    r.sites.length ≤ (folderSites snapshot r.segs).length) ∧
  (st.2 + sumCur st.1 = sumOrig snapshot st.1)

theorem getOrCreate_props (snapshot : List Cat) (recs : List PRec) (segs : List String)
    (hCS : CleanSegs segs)
    (hdist : (recs.map PRec.key).Pairwise (· ≠ ·))
    (hwf : ∀ r ∈ recs, r.key = joinSlash r.segs ∧ CleanSegs r.segs ∧
      r.sites.length ≤ (folderSites snapshot r.segs).length) :
    (((getOrCreateRec snapshot recs (joinSlash segs) segs).1.map PRec.key).Pairwise (· ≠ ·))
    ∧ (∀ r ∈ (getOrCreateRec snapshot recs (joinSlash segs) segs).1,
        r.key = joinSlash r.segs ∧ CleanSegs r.segs ∧
        r.sites.length ≤ (folderSites snapshot r.segs).length)
    ∧ (sumCur (getOrCreateRec snapshot recs (joinSlash segs) segs).1 + sumOrig snapshot recs
        = sumOrig snapshot (getOrCreateRec snapshot recs (joinSlash segs) segs).1
          + sumCur recs)
    ∧ lookupRec (getOrCreateRec snapshot recs (joinSlash segs) segs).1 (joinSlash segs)
        = some ⟨joinSlash segs, segs, (getOrCreateRec snapshot recs (joinSlash segs) segs).2⟩
    ∧ (getOrCreateRec snapshot recs (joinSlash segs) segs).2.length
        ≤ (folderSites snapshot segs).length := by
  cases hl : lookupRec recs (joinSlash segs) with
  | some r =>
    have hgc : getOrCreateRec snapshot recs (joinSlash segs) segs = (recs, r.sites) := by
      unfold getOrCreateRec
      rw [hl]
    have hmem := lookupRec_mem recs _ r hl
    have hwfr := hwf r hmem.1
    have hsegs : r.segs = segs :=
      joinSlash_inj r.segs segs hwfr.2.1 hCS (by rw [← hwfr.1, hmem.2])
    have hreta : r = ⟨joinSlash segs, segs, r.sites⟩ := by
      cases r with
      | mk k sg si =>
        simp only [PRec.mk.injEq]
        refine ⟨by have := hmem.2; simpa using this, by simpa using hsegs, ?_⟩
        trivial
    rw [hgc]
    dsimp only
    refine ⟨hdist, hwf, by omega, ?_, ?_⟩
    · show lookupRec recs (joinSlash segs) = some ⟨joinSlash segs, segs, r.sites⟩
      rw [← hreta]
      exact hl
    · show r.sites.length ≤ (folderSites snapshot segs).length
      have := hwfr.2.2
      rw [hsegs] at this
      exact this
  | none =>
    have hgc : getOrCreateRec snapshot recs (joinSlash segs) segs
        = (recs ++ [(⟨joinSlash segs, segs, folderSites snapshot segs⟩ : PRec)],
           folderSites snapshot segs) := by
      unfold getOrCreateRec
      rw [hl]
    have hnewkeys : ((recs ++ [(⟨joinSlash segs, segs, folderSites snapshot segs⟩ : PRec)]).map
        PRec.key).Pairwise (· ≠ ·) := by
      rw [List.map_append]
      refine List.pairwise_append.mpr ⟨hdist, by simp, ?_⟩
      intro a ha b hb
      obtain ⟨r, hr, rfl⟩ := List.mem_map.mp ha
      have hbx : b = joinSlash segs := by simpa using hb
      rw [hbx]
      exact lookupRec_none recs _ hl r hr
    rw [hgc]
    dsimp only
    refine ⟨hnewkeys, ?_, ?_, ?_, le_refl _⟩
    · intro r hr
      rcases List.mem_append.mp hr with hr' | hr'
      · exact hwf r hr'
      · rcases List.mem_singleton.mp hr' with rfl
        exact ⟨rfl, hCS, le_refl _⟩
    · show sumCur (recs ++ [_]) + sumOrig snapshot recs
        = sumOrig snapshot (recs ++ [_]) + sumCur recs
      simp [sumCur, sumOrig]
      omega
    · exact lookupRec_append_none recs _ _ hl rfl

theorem delStep_inv (snapshot : List Cat) (st : List PRec × Nat) (it : DelItem)
    (h : DelInv snapshot st)
    (hclean : ∀ s ∈ normStrs it.path, '/' ∉ s.data) :
    DelInv snapshot (delStep snapshot st it) := by
  by_cases hte : it.titles.isEmpty = true
  · rw [show delStep snapshot st it = st from by unfold delStep; rw [if_pos hte]]
    exact h
  · by_cases hk : (joinSlash (normStrs it.path) == "") = true
    · rw [show delStep snapshot st it = st from by
        unfold delStep
        rw [if_neg hte, if_pos hk]]
      exact h
    · have hCS : CleanSegs (normStrs it.path) := by
        refine cleanSegs_normStrs it.path hclean ?_
        intro hcontra
        rw [hcontra] at hk
        exact hk rfl
      have hstep : delStep snapshot st it
          = (updateRec (getOrCreateRec snapshot st.1 (joinSlash (normStrs it.path))
                (normStrs it.path)).1 (joinSlash (normStrs it.path))
              ((getOrCreateRec snapshot st.1 (joinSlash (normStrs it.path))
                (normStrs it.path)).2.filter
                (fun s => !((normStrs it.titles).contains s.title))),
             st.2 + ((getOrCreateRec snapshot st.1 (joinSlash (normStrs it.path))
                (normStrs it.path)).2.length
               - ((getOrCreateRec snapshot st.1 (joinSlash (normStrs it.path))
                  (normStrs it.path)).2.filter
                  (fun s => !((normStrs it.titles).contains s.title))).length)) := by
        unfold delStep
        rw [if_neg hte, if_neg (by simpa using hk)]
      obtain ⟨p1, p2, p3, p4, p5⟩ :=
        getOrCreate_props snapshot st.1 (normStrs it.path) hCS h.1 h.2.1
      set gc := getOrCreateRec snapshot st.1 (joinSlash (normStrs it.path))
        (normStrs it.path) with hgc
      set remain := gc.2.filter (fun s => !((normStrs it.titles).contains s.title))
        with hremain
      have hflen : remain.length ≤ gc.2.length := by
        rw [hremain]
        exact List.length_filter_le _ _
      rw [hstep]
      refine ⟨?_, ?_, ?_⟩
      · rw [show (updateRec gc.1 (joinSlash (normStrs it.path)) remain).map PRec.key
            = gc.1.map PRec.key from updateRec_key_map _ _ _]
        exact p1
      · intro x hx
        rcases updateRec_mem gc.1 (joinSlash (normStrs it.path)) remain x hx with
          hx' | ⟨r, hr, hrk, rfl⟩
        · exact p2 x hx'
        · have hwfr := p2 r hr
          refine ⟨by simpa using hwfr.1, by simpa using hwfr.2.1, ?_⟩

          show remain.length ≤ (folderSites snapshot r.segs).length

          have hleq := lookupRec_unique gc.1 r _ p1 hr (eq_of_beq hrk)
          rw [p4] at hleq
          injection hleq with hre
          have hsegseq : r.segs = normStrs it.path := by rw [← hre]
          rw [hsegseq]
          exact le_trans hflen p5
      · have hso := updateRec_sumOrig snapshot gc.1 (joinSlash (normStrs it.path)) remain
        have hsc := updateRec_sumCur gc.1 (joinSlash (normStrs it.path)) remain
          ⟨joinSlash (normStrs it.path), normStrs it.path, gc.2⟩ p4
        have hsum := h.2.2
        show st.2 + (gc.2.length - remain.length)
            + sumCur (updateRec gc.1 (joinSlash (normStrs it.path)) remain)
          = sumOrig snapshot (updateRec gc.1 (joinSlash (normStrs it.path)) remain)
        rw [hso]
        have hsc' : sumCur (updateRec gc.1 (joinSlash (normStrs it.path)) remain)
            + gc.2.length = sumCur gc.1 + remain.length := hsc
        omega

theorem delFold_inv (snapshot : List Cat) (items : List DelItem) :
    ∀ st, DelInv snapshot st →
      (∀ it ∈ items, ∀ s ∈ normStrs it.path, '/' ∉ s.data) →
      DelInv snapshot (items.foldl (delStep snapshot) st) := by
  induction items with
  | nil => intro st h _; exact h
  | cons it rest ih =>
    intro st h hclean
    exact ih (delStep snapshot st it)
      (delStep_inv snapshot st it h (hclean it (List.mem_cons_self _ _)))
      (fun it' hit' => hclean it' (List.mem_cons_of_mem _ hit'))

theorem getOrCreate_lookup_pres (snapshot : List Cat) (recs : List PRec)
    (key : String) (segs : List String) (k : String) (r : PRec)
    (hl : lookupRec recs k = some r) :
    lookupRec (getOrCreateRec snapshot recs key segs).1 k = some r := by
  unfold getOrCreateRec
  cases h' : lookupRec recs key with
  | some r₀ => exact hl
  | none =>
    dsimp only
    exact lookupRec_append_some recs _ k r hl

theorem delStep_establish (snapshot : List Cat) (st : List PRec × Nat) (it : DelItem)
    (h : DelInv snapshot st)
    (hclean : ∀ s ∈ normStrs it.path, '/' ∉ s.data)
    (hte : ¬ it.titles.isEmpty = true)
    (hke : ¬ (joinSlash (normStrs it.path) == "") = true) :
    ∃ r, lookupRec (delStep snapshot st it).1 (joinSlash (normStrs it.path)) = some r
      ∧ r.segs = normStrs it.path
      ∧ ∀ s ∈ r.sites, (normStrs it.titles).contains s.title = false := by
  have hCS : CleanSegs (normStrs it.path) := by
    refine cleanSegs_normStrs it.path hclean ?_
    intro hcontra
    rw [hcontra] at hke
    exact hke rfl
  obtain ⟨p1, p2, p3, p4, p5⟩ :=
    getOrCreate_props snapshot st.1 (normStrs it.path) hCS h.1 h.2.1
  have hstep : delStep snapshot st it
      = (updateRec (getOrCreateRec snapshot st.1 (joinSlash (normStrs it.path))
            (normStrs it.path)).1 (joinSlash (normStrs it.path))
          ((getOrCreateRec snapshot st.1 (joinSlash (normStrs it.path))
            (normStrs it.path)).2.filter
            (fun s => !((normStrs it.titles).contains s.title))),
         st.2 + ((getOrCreateRec snapshot st.1 (joinSlash (normStrs it.path))
            (normStrs it.path)).2.length
           - ((getOrCreateRec snapshot st.1 (joinSlash (normStrs it.path))
              (normStrs it.path)).2.filter
              (fun s => !((normStrs it.titles).contains s.title))).length)) := by
    unfold delStep
    rw [if_neg hte, if_neg (by simpa using hke)]
  rw [hstep]
  refine ⟨⟨joinSlash (normStrs it.path), normStrs it.path,
    (getOrCreateRec snapshot st.1 (joinSlash (normStrs it.path))
      (normStrs it.path)).2.filter (fun s => !((normStrs it.titles).contains s.title))⟩,
    ?_, rfl, ?_⟩
  · exact updateRec_lookup_self _ _ _ _ p4
  · intro s hs
    have := (List.mem_filter.mp hs).2
    simpa using this

theorem delStep_mono (snapshot : List Cat) (st : List PRec × Nat) (it : DelItem)
    (k : String) (r : PRec)
    (h : DelInv snapshot st)
    (hclean : ∀ s ∈ normStrs it.path, '/' ∉ s.data)
    (hl : lookupRec st.1 k = some r) :
    ∃ r', lookupRec (delStep snapshot st it).1 k = some r'
      ∧ r'.segs = r.segs ∧ ∀ s ∈ r'.sites, s ∈ r.sites := by
  by_cases hte : it.titles.isEmpty = true
  · refine ⟨r, ?_, rfl, fun s hs => hs⟩
    rw [show delStep snapshot st it = st from by unfold delStep; rw [if_pos hte]]
    exact hl
  · by_cases hke : (joinSlash (normStrs it.path) == "") = true
    · refine ⟨r, ?_, rfl, fun s hs => hs⟩
      rw [show delStep snapshot st it = st from by
        unfold delStep; rw [if_neg hte, if_pos hke]]
      exact hl
    · have hCS : CleanSegs (normStrs it.path) := by
        refine cleanSegs_normStrs it.path hclean ?_
        intro hcontra
        rw [hcontra] at hke
        exact hke rfl
      obtain ⟨p1, p2, p3, p4, p5⟩ :=
        getOrCreate_props snapshot st.1 (normStrs it.path) hCS h.1 h.2.1
      have hstep : delStep snapshot st it
          = (updateRec (getOrCreateRec snapshot st.1 (joinSlash (normStrs it.path))
                (normStrs it.path)).1 (joinSlash (normStrs it.path))
              ((getOrCreateRec snapshot st.1 (joinSlash (normStrs it.path))
                (normStrs it.path)).2.filter
                (fun s => !((normStrs it.titles).contains s.title))),
             st.2 + ((getOrCreateRec snapshot st.1 (joinSlash (normStrs it.path))
                (normStrs it.path)).2.length
               - ((getOrCreateRec snapshot st.1 (joinSlash (normStrs it.path))
                  (normStrs it.path)).2.filter
                  (fun s => !((normStrs it.titles).contains s.title))).length)) := by
        unfold delStep
        rw [if_neg hte, if_neg (by simpa using hke)]
      have hpres := getOrCreate_lookup_pres snapshot st.1 (joinSlash (normStrs it.path))
        (normStrs it.path) k r hl
      rw [hstep]
      by_cases hkk : k = joinSlash (normStrs it.path)
      · subst hkk
        have hreq : r = ⟨joinSlash (normStrs it.path), normStrs it.path,
            (getOrCreateRec snapshot st.1 (joinSlash (normStrs it.path))
              (normStrs it.path)).2⟩ := by
          rw [hpres] at p4
          injection p4 with h'
        refine ⟨⟨joinSlash (normStrs it.path), normStrs it.path,
          (getOrCreateRec snapshot st.1 (joinSlash (normStrs it.path))
            (normStrs it.path)).2.filter
            (fun s => !((normStrs it.titles).contains s.title))⟩,
          updateRec_lookup_self _ _ _ _ p4, ?_, ?_⟩
        · rw [hreq]
        · intro s hs
          rw [hreq]
          exact (List.mem_filter.mp hs).1
      · refine ⟨r, ?_, rfl, fun s hs => hs⟩
        rw [updateRec_lookup_other _ _ _ k hkk]
        exact hpres

theorem delFold_mono (snapshot : List Cat) (items : List DelItem) :
    ∀ st (k : String) (r : PRec), DelInv snapshot st →
      (∀ it ∈ items, ∀ s ∈ normStrs it.path, '/' ∉ s.data) →
      lookupRec st.1 k = some r →
      ∃ r', lookupRec (items.foldl (delStep snapshot) st).1 k = some r'
        ∧ r'.segs = r.segs ∧ ∀ s ∈ r'.sites, s ∈ r.sites := by
  induction items with
  | nil => intro st k r _ _ hl; exact ⟨r, hl, rfl, fun s hs => hs⟩
  | cons it rest ih =>
    intro st k r h hclean hl
    obtain ⟨r₁, hl₁, hsegs₁, hsub₁⟩ :=
      delStep_mono snapshot st it k r h (hclean it (List.mem_cons_self _ _)) hl
    obtain ⟨r', hl', hsegs', hsub'⟩ :=
      ih (delStep snapshot st it) k r₁
        (delStep_inv snapshot st it h (hclean it (List.mem_cons_self _ _)))
        (fun it' hit' => hclean it' (List.mem_cons_of_mem _ hit')) hl₁
    exact ⟨r', hl', by rw [hsegs', hsegs₁], fun s hs => hsub₁ s (hsub' s hs)⟩

theorem delFold_absence (snapshot : List Cat) (items : List DelItem) :
    ∀ st, DelInv snapshot st →
      (∀ it ∈ items, ∀ s ∈ normStrs it.path, '/' ∉ s.data) →
      ∀ it ∈ items, ¬ it.titles.isEmpty = true →
        ¬ (joinSlash (normStrs it.path) == "") = true →
      ∃ r, lookupRec (items.foldl (delStep snapshot) st).1
          (joinSlash (normStrs it.path)) = some r
        ∧ r.segs = normStrs it.path
        ∧ ∀ s ∈ r.sites, (normStrs it.titles).contains s.title = false := by
  induction items with
  | nil => intro st _ _ it hit; cases hit
  | cons it₀ rest ih =>
    intro st h hclean it hit hte hke
    rcases List.mem_cons.mp hit with rfl | hmem
    · obtain ⟨r₀, hl₀, hsegs₀, habs₀⟩ :=
        delStep_establish snapshot st it h (hclean it (List.mem_cons_self _ _)) hte hke
      obtain ⟨r', hl', hsegs', hsub'⟩ :=
        delFold_mono snapshot rest (delStep snapshot st it) (joinSlash (normStrs it.path)) r₀
          (delStep_inv snapshot st it h (hclean it (List.mem_cons_self _ _)))
          (fun it' hit' => hclean it' (List.mem_cons_of_mem _ hit')) hl₀
      exact ⟨r', hl', by rw [hsegs', hsegs₀],
        fun s hs => habs₀ s (hsub' s hs)⟩
    · exact ih (delStep snapshot st it₀)
        (delStep_inv snapshot st it₀ h (hclean it₀ (List.mem_cons_self _ _)))
        (fun it' hit' => hclean it' (List.mem_cons_of_mem _ hit'))
        it hmem hte hke

/-- C7 (amended): for every batch of site-delete items whose addressed path
segments are slash-free, items addressing nonexistent folders or titles do
not abort the rest: the reported `deleted` count plus the surviving total
site count equals the snapshot's total (so `deleted` is exactly the number
of entries actually removed), and every processed item's addressed folder
retains none of the requested titles. A path segment containing `'/'` breaks
this: the count registers the removal but the persisted write re-splits the
key and lands nowhere. -/
theorem batch_delete_partial_success (snapshot : List Cat) (items : List DelItem)
    (hclean : ∀ it ∈ items, ∀ s ∈ normStrs it.path, '/' ∉ s.data) :
    (batchDeleteSites snapshot items).1
        + totalSitesL (batchDeleteSites snapshot items).2 = totalSitesL snapshot
    ∧ ∀ it ∈ items, ¬ it.titles.isEmpty = true →
        ¬ (joinSlash (normStrs it.path) == "") = true →
        ∀ s ∈ folderSites (batchDeleteSites snapshot items).2 (normStrs it.path),
          (normStrs it.titles).contains s.title = false := by
  have hInv0 : DelInv snapshot ([], 0) := by
    refine ⟨List.Pairwise.nil, ?_, ?_⟩
    · intro r hr; cases hr
    · simp [sumCur, sumOrig]
  have hInv := delFold_inv snapshot items ([], 0) hInv0 hclean
  set st := items.foldl (delStep snapshot) ([], 0) with hst
  have hwf2 : ∀ r ∈ st.1, r.key = joinSlash r.segs ∧ CleanSegs r.segs :=
    fun r hr => ⟨(hInv.2.1 r hr).1, (hInv.2.1 r hr).2.1⟩
  have hbulk : applyBulkL snapshot (st.1.map toUpd) = applyRecs snapshot st.1 :=
    applyBulkL_recs snapshot st.1 hwf2 hInv.1
  have hprops := applyRecs_props st.1 snapshot hInv.1 hInv.2.1
  have hres : batchDeleteSites snapshot items = (st.2, applyRecs snapshot st.1) := by
    show (st.2, applyBulkL snapshot (st.1.map toUpd)) = _
    rw [hbulk]
  rw [hres]
  constructor
  · have h1 := hprops.1
    have h2 := hInv.2.2
    dsimp only
    omega
  · intro it hit hte hke
    obtain ⟨r, hl, hsegs, habs⟩ :=
      delFold_absence snapshot items ([], 0) hInv0 hclean it hit hte hke
    have hmem := (lookupRec_mem st.1 _ r hl).1
    have hread := hprops.2 r hmem
    intro s hs
    dsimp only at hs
    rw [← hsegs, hread] at hs
    by_cases hsome : (findNodeL snapshot r.segs).isSome
    · rw [if_pos hsome] at hs
      exact habs s hs
    · rw [if_neg hsome] at hs
      cases hs

/-- Witness for C7's amended form: a batch of three delete items over a
two-category snapshot, one addressing a missing title and one a missing
folder; two sites are removed and the count reports exactly 2. -/
theorem batch_delete_partial_success_witness :
    (∀ it ∈ ([⟨["Dev"], ["S1", "Nope"]⟩, ⟨["Ops"], ["S4"]⟩,
        ⟨["Ghost"], ["S9"]⟩] : List DelItem),
      ∀ s ∈ normStrs it.path, '/' ∉ s.data) ∧
    ((batchDeleteSites
        [Cat.mk "d" "Dev" none [⟨"S1", "d", "u1", "i", none⟩,
           ⟨"S2", "d", "u2", "i", none⟩, ⟨"S3", "d", "u3", "i", none⟩] [],
         Cat.mk "o" "Ops" none [⟨"S4", "d", "u4", "i", none⟩] []]
        [⟨["Dev"], ["S1", "Nope"]⟩, ⟨["Ops"], ["S4"]⟩, ⟨["Ghost"], ["S9"]⟩]).1
      + totalSitesL (batchDeleteSites
        [Cat.mk "d" "Dev" none [⟨"S1", "d", "u1", "i", none⟩,
           ⟨"S2", "d", "u2", "i", none⟩, ⟨"S3", "d", "u3", "i", none⟩] [],
         Cat.mk "o" "Ops" none [⟨"S4", "d", "u4", "i", none⟩] []]
        [⟨["Dev"], ["S1", "Nope"]⟩, ⟨["Ops"], ["S4"]⟩, ⟨["Ghost"], ["S9"]⟩]).2
      = totalSitesL
        [Cat.mk "d" "Dev" none [⟨"S1", "d", "u1", "i", none⟩,
           ⟨"S2", "d", "u2", "i", none⟩, ⟨"S3", "d", "u3", "i", none⟩] [],
         Cat.mk "o" "Ops" none [⟨"S4", "d", "u4", "i", none⟩] []]
    ∧ ∀ it ∈ ([⟨["Dev"], ["S1", "Nope"]⟩, ⟨["Ops"], ["S4"]⟩,
        ⟨["Ghost"], ["S9"]⟩] : List DelItem), ¬ it.titles.isEmpty = true →
        ¬ (joinSlash (normStrs it.path) == "") = true →
        ∀ s ∈ folderSites (batchDeleteSites
          [Cat.mk "d" "Dev" none [⟨"S1", "d", "u1", "i", none⟩,
             ⟨"S2", "d", "u2", "i", none⟩, ⟨"S3", "d", "u3", "i", none⟩] [],
           Cat.mk "o" "Ops" none [⟨"S4", "d", "u4", "i", none⟩] []]
          [⟨["Dev"], ["S1", "Nope"]⟩, ⟨["Ops"], ["S4"]⟩,
           ⟨["Ghost"], ["S9"]⟩]).2 (normStrs it.path),
          (normStrs it.titles).contains s.title = false) :=
  ⟨by decide, batch_delete_partial_success _ _ (by decide)⟩

/-- Counterexample to C7 as stated: a folder whose title contains `'/'` —
the delete is counted (`deleted = 1`) yet no site entry is actually removed,
because the persisted write re-splits the path key on `'/'` and resolves
nowhere, so the reported count exceeds the number of entries removed. -/
theorem batch_delete_count_mismatch :
    (batchDeleteSites [Cat.mk "" "a/b" none [⟨"S", "d", "u", "i", none⟩] []]
        [⟨["a/b"], ["S"]⟩]).1 = 1 ∧
    (batchDeleteSites [Cat.mk "" "a/b" none [⟨"S", "d", "u", "i", none⟩] []]
        [⟨["a/b"], ["S"]⟩]).2
      = [Cat.mk "" "a/b" none [⟨"S", "d", "u", "i", none⟩] []] :=
  ⟨rfl, rfl⟩

/-- C10 (amended): a missing description is a validation failure for the
single add-site endpoint — `handleAddSite` rejects it with 400 and leaves the
tree unchanged; only the batch add endpoint accepts it, and there the created
entry's description defaults to the empty string, not to a placeholder
derived from the title (the title-derived placeholder exists only in the
admin front-end, which fills it in before the request is sent). -/
theorem add_site_description_default (snapshot : List Cat) (it : AddItem)
    (hdesc : it.description = "")
    (ht : it.title ≠ "")
    (hu : it.url ≠ "")
    (hclean : ∀ s ∈ normStrs it.path, '/' ∉ s.data)
    (hne : normStrs it.path ≠ [])
    (hsome : (findNodeL snapshot (normStrs it.path)).isSome = true)
    (hins : canInsertUrl (folderSites snapshot (normStrs it.path)) it.url = true) :
    (∀ (cats : List Cat) (categoryId title url icon : String),
      handleAddSite cats categoryId title url "" icon = ⟨400, cats⟩)
    ∧ (batchAddSites snapshot [it]).1 = 1
    ∧ folderSites (batchAddSites snapshot [it]).2 (normStrs it.path)
        = folderSites snapshot (normStrs it.path)
          ++ [⟨it.title, "", it.url, jsOr it.icon "🌐", faviconFor it.url⟩] := by
  have hCS : CleanSegs (normStrs it.path) := cleanSegs_normStrs it.path hclean hne
  have hke : (joinSlash (normStrs it.path) == "") = false := by
    simpa using joinSlash_clean_ne (normStrs it.path) hCS
  have hgc : getOrCreateRec snapshot [] (joinSlash (normStrs it.path)) (normStrs it.path)
      = ([⟨joinSlash (normStrs it.path), normStrs it.path,
          folderSites snapshot (normStrs it.path)⟩],
         folderSites snapshot (normStrs it.path)) := rfl
  have hstep : addStep snapshot ([], 0) it
      = ([⟨joinSlash (normStrs it.path), normStrs it.path,
          folderSites snapshot (normStrs it.path)
            ++ [⟨it.title, "", it.url, jsOr it.icon "🌐", faviconFor it.url⟩]⟩], 1) := by
    unfold addStep
    rw [if_neg (by simp [hke]), hgc]
    dsimp only
    rw [if_neg (by simp [ht, hu]), if_pos hins]
    simp [updateRec, hdesc, jsOr]
  have hst : List.foldl (addStep snapshot) ([], 0) [it] = addStep snapshot ([], 0) it := rfl
  have hb : batchAddSites snapshot [it]
      = (1, applyBulkL snapshot
          ([(⟨joinSlash (normStrs it.path), normStrs it.path,
             folderSites snapshot (normStrs it.path)
               ++ [⟨it.title, "", it.url, jsOr it.icon "🌐", faviconFor it.url⟩]⟩ : PRec)].map
            toUpd)) := by
    show ((List.foldl (addStep snapshot) ([], 0) [it]).2,
      applyBulkL snapshot ((List.foldl (addStep snapshot) ([], 0) [it]).1.map toUpd)) = _
    rw [hst, hstep]
  have hwf : ∀ r ∈ [(⟨joinSlash (normStrs it.path), normStrs it.path,
      folderSites snapshot (normStrs it.path)
        ++ [⟨it.title, "", it.url, jsOr it.icon "🌐", faviconFor it.url⟩]⟩ : PRec)],
      r.key = joinSlash r.segs ∧ CleanSegs r.segs := by
    intro r hr
    rcases List.mem_singleton.mp hr with rfl
    exact ⟨rfl, hCS⟩
  have hbulk := applyBulkL_recs snapshot
    [(⟨joinSlash (normStrs it.path), normStrs it.path,
       folderSites snapshot (normStrs it.path)
         ++ [⟨it.title, "", it.url, jsOr it.icon "🌐", faviconFor it.url⟩]⟩ : PRec)]
    hwf (by simp)
  obtain ⟨c, hc⟩ := Option.isSome_iff_exists.mp hsome
  refine ⟨?_, ?_, ?_⟩
  · intro cats categoryId title url icon
    simp [handleAddSite]
  · rw [hb]
  · rw [hb]
    dsimp only
    rw [hbulk,
      show applyRecs snapshot
        [(⟨joinSlash (normStrs it.path), normStrs it.path,
           folderSites snapshot (normStrs it.path)
             ++ [⟨it.title, "", it.url, jsOr it.icon "🌐", faviconFor it.url⟩]⟩ : PRec)]
        = setSitesL snapshot (normStrs it.path)
            (folderSites snapshot (normStrs it.path)
              ++ [⟨it.title, "", it.url, jsOr it.icon "🌐", faviconFor it.url⟩]) from rfl]
    unfold folderSites
    rw [findNodeL_set_self snapshot (normStrs it.path) _ c hc]
    simp [withSites_sites]

/-- Witness for C10's amended form: a batch add of one item without a
description into the existing category `C` succeeds with `added = 1` and an
empty-string description, while the single endpoint rejects the same
payload with 400. -/
theorem add_site_description_default_witness :
    (("T" : String) ≠ "" ∧ ("http://u" : String) ≠ ""
      ∧ (findNodeL [Cat.mk "c" "C" none [] []]
          (normStrs (["C"] : List String))).isSome = true)
    ∧ ((∀ (cats : List Cat) (categoryId title url icon : String),
        handleAddSite cats categoryId title url "" icon = ⟨400, cats⟩)
      ∧ (batchAddSites [Cat.mk "c" "C" none [] []]
          [⟨["C"], "T", "http://u", "", ""⟩]).1 = 1
      ∧ folderSites (batchAddSites [Cat.mk "c" "C" none [] []]
            [⟨["C"], "T", "http://u", "", ""⟩]).2 (normStrs ["C"])
          = folderSites [Cat.mk "c" "C" none [] []] (normStrs ["C"])
            ++ [⟨"T", "", "http://u", jsOr "" "🌐", faviconFor "http://u"⟩]) :=
  ⟨⟨by decide, by decide, by decide⟩,
   add_site_description_default [Cat.mk "c" "C" none [] []]
     ⟨["C"], "T", "http://u", "", ""⟩ rfl (by decide) (by decide) (by decide)
     (by decide) (by decide) (by decide)⟩

/-- Counterexample to C10 as stated: the single add-site endpoint with an
omitted description does not succeed — it returns 400 — and the batch
endpoint's default description is the empty string, not a placeholder
derived from the title. -/
theorem add_site_missing_description_rejected :
    (handleAddSite [Cat.mk "c" "C" none [] []] "c" "T" "http://u" "" "🌐").status
      = 400
    ∧ (handleAddSite [Cat.mk "c" "C" none [] []] "c" "T" "http://u" "" "🌐").status
      ≠ 200
    ∧ (batchAddSites [Cat.mk "c2" "C2" none [] []]
        [⟨["C2"], "T", "http://u", "", ""⟩]).2
      = [Cat.mk "c2" "C2" none
          [⟨"T", "", "http://u", "🌐", faviconFor "http://u"⟩] []]
    ∧ ("" : String) ≠ "T" ++ "网站" :=
  ⟨rfl, by decide, rfl, by decide⟩

/-- C6 (amended): when source category, site (by title) and destination
category all resolve, the single move-site endpoint splices the site out of
the source and appends it to the destination's sites unconditionally — it
performs no duplicate-url check, so the destination can gain a duplicate
url.  The duplicate-url skip exists only on the batch-move path, whose
target phase drops a collected site when its url is already present. -/
theorem move_site_append_semantics (cats : List Cat)
    (categoryId siteTitle targetCategoryId : String) (si ti k : Nat)
    (src tgt : Cat) (site : Site)
    (htgt : (targetCategoryId == "") = false)
    (h1 : cats.findIdx? (fun c => c.id == categoryId) = some si)
    (h2 : cats.findIdx? (fun c => c.id == targetCategoryId) = some ti)
    (h3 : cats[si]? = some src)
    (h4 : src.sites.findIdx? (fun s => s.title == siteTitle) = some k)
    (h5 : src.sites[k]? = some site)
    (h6 : (cats.set si (src.withSites (src.sites.eraseIdx k)))[ti]? = some tgt) :
    handleMoveSite cats categoryId siteTitle targetCategoryId
      = ⟨200, (cats.set si (src.withSites (src.sites.eraseIdx k))).set ti
          (tgt.withSites (tgt.sites ++ [site]))⟩
    ∧ ∀ (tsites : List Site) (s : Site),
        appendMovedFold tsites [s]
          = if canInsertUrl tsites s.url then tsites ++ [s] else tsites := by
  constructor
  · simp only [handleMoveSite, htgt, h1, h2, h3, h4, h5, h6]
    rfl
  · intro tsites s
    rfl

/-- Witness for C6's amended form: moving site `S` (url `u`) from category
`a` into category `b`, which already holds a site with url `u`; the single
endpoint appends it anyway, while the batch target phase would skip it. -/
theorem move_site_append_semantics_witness :
    ((("b" : String) == "") = false
      ∧ ([Cat.mk "a" "A" none [⟨"S", "d", "u", "i", none⟩] [],
          Cat.mk "b" "B" none [⟨"S2", "d", "u", "i", none⟩] []].findIdx?
          (fun c => c.id == "a") = some 0))
    ∧ (handleMoveSite
        [Cat.mk "a" "A" none [⟨"S", "d", "u", "i", none⟩] [],
         Cat.mk "b" "B" none [⟨"S2", "d", "u", "i", none⟩] []] "a" "S" "b"
      = ⟨200, ([Cat.mk "a" "A" none [⟨"S", "d", "u", "i", none⟩] [],
          Cat.mk "b" "B" none [⟨"S2", "d", "u", "i", none⟩] []].set 0
            ((Cat.mk "a" "A" none [⟨"S", "d", "u", "i", none⟩] []).withSites
              ([⟨"S", "d", "u", "i", none⟩].eraseIdx 0))).set 1
          ((Cat.mk "b" "B" none [⟨"S2", "d", "u", "i", none⟩] []).withSites
            ([⟨"S2", "d", "u", "i", none⟩] ++ [⟨"S", "d", "u", "i", none⟩]))⟩
      ∧ ∀ (tsites : List Site) (s : Site),
          appendMovedFold tsites [s]
            = if canInsertUrl tsites s.url then tsites ++ [s] else tsites) :=
  ⟨⟨rfl, rfl⟩,
   move_site_append_semantics
     [Cat.mk "a" "A" none [⟨"S", "d", "u", "i", none⟩] [],
      Cat.mk "b" "B" none [⟨"S2", "d", "u", "i", none⟩] []]
     "a" "S" "b" 0 1 0
     (Cat.mk "a" "A" none [⟨"S", "d", "u", "i", none⟩] [])
     (Cat.mk "b" "B" none [⟨"S2", "d", "u", "i", none⟩] [])
     ⟨"S", "d", "u", "i", none⟩
     rfl rfl rfl rfl rfl rfl rfl⟩

/-- Counterexample to C6 as stated: the destination already holds a site
with url `u`, yet the single move-site endpoint appends the moved site —
the destination ends up with two entries sharing url `u`, so the claimed
skip does not happen on this path. -/
theorem move_site_no_dup_skip :
    (handleMoveSite
        [Cat.mk "a" "A" none [⟨"S", "d", "u", "i", none⟩] [],
         Cat.mk "b" "B" none [⟨"S2", "d", "u", "i", none⟩] []] "a" "S" "b").status
      = 200
    ∧ ((handleMoveSite
        [Cat.mk "a" "A" none [⟨"S", "d", "u", "i", none⟩] [],
         Cat.mk "b" "B" none [⟨"S2", "d", "u", "i", none⟩] []] "a" "S" "b").cats.map
        (fun c => countUrl c.sites "u"))
      = [0, 2] :=
  ⟨rfl, rfl⟩

/-- C5: adding a site whose url already exists among the target category's
direct sites is rejected and the tree is left unchanged — but with HTTP
status 400, not 409: the handler passes `HTTP_STATUS.CONFLICT` to the error
response, a key that `responseUtils.js` never defines, so the response
builder falls back to its default status `BAD_REQUEST = 400`. -/
theorem add_site_duplicate_conflict (cats : List Cat)
    (categoryId title url description icon : String) (si : Nat) (cat : Cat)
    (hv : (categoryId == "" || title == "" || url == "" || description == "") = false)
    (h1 : cats.findIdx? (fun c => c.id == categoryId) = some si)
    (h2 : cats[si]? = some cat)
    (hdup : cat.sites.any (fun s => s.url == url) = true) :
    handleAddSite cats categoryId title url description icon = ⟨400, cats⟩
    ∧ (handleAddSite cats categoryId title url description icon).status ≠ 409 := by
  have hdup' : cat.sites.any (fun s => s.title == title || s.url == url) = true := by
    rw [List.any_eq_true] at hdup ⊢
    obtain ⟨s, hs, hu⟩ := hdup
    exact ⟨s, hs, by rw [Bool.or_eq_true]; exact Or.inr hu⟩
  have hmain : handleAddSite cats categoryId title url description icon = ⟨400, cats⟩ := by
    simp only [handleAddSite, hv, h1, h2, hdup']
    rfl
  exact ⟨hmain, by rw [hmain]; show (400 : Nat) ≠ 409; decide⟩

/-- Witness for C5 at a concrete input: adding a second site with url `u`
into category `C` is rejected with status 400 (not 409) and the category
list is returned unchanged. -/
theorem add_site_duplicate_conflict_witness :
    ((("c" : String) == "" || ("T2" : String) == "" || ("u" : String) == ""
        || ("d2" : String) == "") = false
      ∧ [Cat.mk "c" "C" none [⟨"S", "d", "u", "i", none⟩] []].findIdx?
          (fun c => c.id == "c") = some 0
      ∧ ([Cat.mk "c" "C" none [⟨"S", "d", "u", "i", none⟩] []])[0]?
          = some (Cat.mk "c" "C" none [⟨"S", "d", "u", "i", none⟩] [])
      ∧ (Cat.mk "c" "C" none [⟨"S", "d", "u", "i", none⟩] []).sites.any
          (fun s => s.url == "u") = true)
    ∧ (handleAddSite [Cat.mk "c" "C" none [⟨"S", "d", "u", "i", none⟩] []]
          "c" "T2" "u" "d2" "🌐"
        = ⟨400, [Cat.mk "c" "C" none [⟨"S", "d", "u", "i", none⟩] []]⟩
      ∧ (handleAddSite [Cat.mk "c" "C" none [⟨"S", "d", "u", "i", none⟩] []]
          "c" "T2" "u" "d2" "🌐").status ≠ 409) :=
  ⟨⟨rfl, rfl, rfl, rfl⟩,
   add_site_duplicate_conflict [Cat.mk "c" "C" none [⟨"S", "d", "u", "i", none⟩] []]
     "c" "T2" "u" "d2" "🌐" 0 (Cat.mk "c" "C" none [⟨"S", "d", "u", "i", none⟩] [])
     rfl rfl rfl rfl⟩

theorem findIdx?_shift (p : Cat → Bool) (l : List Cat) : ∀ i,
    List.findIdx? p l i = (List.findIdx? p l 0).map (· + i) := by
  induction l with
  | nil => intro i; rfl
  | cons a l ih =>
    intro i
    rw [List.findIdx?_cons, List.findIdx?_cons]
    cases hp : p a with
    | true => simp
    | false =>
      simp only [Bool.false_eq_true, if_false]
      rw [ih (i + 1), ih (0 + 1), Option.map_map]
      cases h : List.findIdx? p l 0 with
      | none => rfl
      | some k =>
        simp only [Option.map_some', Function.comp, Option.some.injEq]
        omega

theorem findIdx?_cons_pos (p : Cat → Bool) (a : Cat) (l : List Cat)
    (ha : p a = true) : List.findIdx? p (a :: l) = some 0 := by
  show List.findIdx? p (a :: l) 0 = some 0
  rw [List.findIdx?_cons, if_pos ha]

theorem findIdx?_cons_neg (p : Cat → Bool) (a : Cat) (l : List Cat) (j : Nat)
    (ha : p a = false) (h : List.findIdx? p l = some j) :
    List.findIdx? p (a :: l) = some (j + 1) := by
  show List.findIdx? p (a :: l) 0 = some (j + 1)
  rw [List.findIdx?_cons, if_neg (by simp [ha]), findIdx?_shift, h]
  rfl

theorem wfAddrC_children (n : Cat) : wfAddrC n = wfAddrL n.children := by
  cases n
  rfl

theorem wfAddrL_cons (c : Cat) (cs : List Cat) (h : wfAddrL (c :: cs) = true) :
    cs.all (addrCompat c) = true ∧ wfAddrC c = true ∧ wfAddrL cs = true := by
  have h' : (cs.all (addrCompat c) && wfAddrC c && wfAddrL cs) = true := h
  obtain ⟨h12, h3⟩ := Bool.and_eq_true_iff.mp h'
  obtain ⟨h1, h2⟩ := Bool.and_eq_true_iff.mp h12
  exact ⟨h1, h2, h3⟩

theorem wfAddrL_mem (l : List Cat) (c : Cat) (hl : wfAddrL l = true)
    (hc : c ∈ l) : wfAddrC c = true := by
  induction l with
  | nil => cases hc
  | cons c₀ cs ih =>
    obtain ⟨_, h2, h3⟩ := wfAddrL_cons c₀ cs hl
    rcases List.mem_cons.mp hc with rfl | hmem
    · exact h2
    · exact ih h3 hmem

theorem addrCompat_preds (a b : Cat) (h : addrCompat a b = true) :
    (((idTruthy a && a.id == b.title) || a.title == b.title) = false)
    ∧ (((idTruthy a && a.id == catKey b) || a.title == catKey b) = false)
    ∧ ((a.title == b.title || catKey a == b.title) = false)
    ∧ ((a.title == b.title) = false) := by
  have h' : ((!(a.title == b.title) &&
      ((!(idTruthy a && idTruthy b)) || !(a.id == b.id)) &&
      ((!(idTruthy a)) || !(a.id == b.title)) &&
      ((!(idTruthy b)) || !(b.id == a.title))) = true) := h
  obtain ⟨h123, h4⟩ := Bool.and_eq_true_iff.mp h'
  obtain ⟨h12, h3⟩ := Bool.and_eq_true_iff.mp h123
  obtain ⟨h1, h2⟩ := Bool.and_eq_true_iff.mp h12
  have hT : (a.title == b.title) = false := by simpa using h1
  have hid : idTruthy a = true → idTruthy b = true → (a.id == b.id) = false := by
    intro ha hb
    rcases Bool.or_eq_true_iff.mp h2 with hl | hr
    · simp [ha, hb] at hl
    · simpa using hr
  have hid3 : idTruthy a = true → (a.id == b.title) = false := by
    intro ha
    rcases Bool.or_eq_true_iff.mp h3 with hl | hr
    · simp [ha] at hl
    · simpa using hr
  have hid4 : idTruthy b = true → (b.id == a.title) = false := by
    intro hb
    rcases Bool.or_eq_true_iff.mp h4 with hl | hr
    · simp [hb] at hl
    · simpa using hr
  refine ⟨?_, ?_, ?_, hT⟩
  · cases ha : idTruthy a with
    | false => simp [ha, hT]
    | true => simp [ha, hid3 ha, hT]
  · by_cases hbid : b.id = ""
    · have hk : catKey b = b.title := by simp [catKey, jsOr, hbid]
      rw [hk]
      cases ha : idTruthy a with
      | false => simp [ha, hT]
      | true => simp [ha, hid3 ha, hT]
    · have hk : catKey b = b.id := by simp [catKey, jsOr, hbid]
      have hbt : idTruthy b = true := by simp [idTruthy, hbid]
      have hsym : (a.title == b.id) = false := by
        have := beq_eq_false_iff_ne.mp (hid4 hbt)
        exact beq_eq_false_iff_ne.mpr (fun hcontra => this hcontra.symm)
      rw [hk]
      cases ha : idTruthy a with
      | false => simp [ha, hsym]
      | true => simp [ha, hid ha hbt, hsym]
  · by_cases haid : a.id = ""
    · have hk : catKey a = a.title := by simp [catKey, jsOr, haid]
      rw [hk]
      simp [hT]
    · have hk : catKey a = a.id := by simp [catKey, jsOr, haid]
      have hat : idTruthy a = true := by simp [idTruthy, haid]
      rw [hk]
      simp [hT, hid3 hat]

theorem pick_self_preds (c : Cat) :
    (((idTruthy c && c.id == c.title) || c.title == c.title) = true)
    ∧ (((idTruthy c && c.id == catKey c) || c.title == catKey c) = true)
    ∧ ((c.title == c.title || catKey c == c.title) = true) := by
  refine ⟨by simp, ?_, by simp⟩
  by_cases h : c.id = ""
  · simp [catKey, jsOr, h]
  · simp [catKey, jsOr, h, idTruthy]

theorem pickChild_cons_pos (c : Cat) (cs : List Cat) (k : String)
    (h : ((idTruthy c && c.id == k) || c.title == k) = true) :
    pickChild (c :: cs) k = some c := by
  unfold pickChild
  exact List.find?_cons_of_pos cs
    (show (fun x => (idTruthy x && x.id == k) || x.title == k) c = true from h)

theorem pickChild_cons_neg (c : Cat) (cs : List Cat) (k : String)
    (h : ((idTruthy c && c.id == k) || c.title == k) = false) :
    pickChild (c :: cs) k = pickChild cs k := by
  unfold pickChild
  exact List.find?_cons_of_neg cs (by simp [h])

theorem sib_lookup (cats : List Cat) : ∀ (i : Nat) (c : Cat),
    wfAddrL cats = true → cats[i]? = some c →
    pickChild cats c.title = some c
    ∧ pickChild cats (catKey c) = some c
    ∧ rootTitleIdx cats c.title = some i
    ∧ cats.findIdx? (fun ch => ch.title == c.title) = some i := by
  induction cats with
  | nil => intro i c _ h; simp at h
  | cons c₀ cs ih =>
    intro i c hwf hget
    obtain ⟨hall, _, hrest⟩ := wfAddrL_cons c₀ cs hwf
    cases i with
    | zero =>
      have hc : c₀ = c := by simpa using hget
      subst hc
      obtain ⟨s1, s2, s3⟩ := pick_self_preds c₀
      refine ⟨pickChild_cons_pos c₀ cs _ s1, pickChild_cons_pos c₀ cs _ s2, ?_, ?_⟩
      · unfold rootTitleIdx
        exact findIdx?_cons_pos _ _ _ s3
      · exact findIdx?_cons_pos _ _ _ (by simp)
    | succ j =>
      have hget' : cs[j]? = some c := by simpa using hget
      have hmem : c ∈ cs := List.getElem?_mem hget'
      have hcompat : addrCompat c₀ c = true := by
        have := List.all_eq_true.mp hall c hmem
        simpa using this
      obtain ⟨q1, q2, q3, q4⟩ := addrCompat_preds c₀ c hcompat
      obtain ⟨r1, r2, r3, r4⟩ := ih j c hrest hget'
      refine ⟨?_, ?_, ?_, ?_⟩
      · rw [pickChild_cons_neg c₀ cs _ q1]
        exact r1
      · rw [pickChild_cons_neg c₀ cs _ q2]
        exact r2
      · unfold rootTitleIdx at r3 ⊢
        exact findIdx?_cons_neg _ _ _ _ q3 r3
      · exact findIdx?_cons_neg _ _ _ _ (by simpa using q4) r4

theorem pathEquiv_from (is : List Nat) : ∀ (n c : Cat) (tp idp : List String),
    wfAddrC n = true →
    findByIndexPath n.children is = some c →
    pathKeysOfIdx Cat.title n.children is = some tp →
    pathKeysOfIdx catKey n.children is = some idp →
    resolveAnyFrom n tp = some c
    ∧ resolveAnyFrom n idp = some c
    ∧ findIndexPathFrom n tp = some is := by
  induction is with
  | nil =>
    intro n c tp idp _ hfind _ _
    simp [findByIndexPath] at hfind
  | cons i is' ih =>
    intro n c tp idp hwfn hfind htp hidp
    rw [wfAddrC_children] at hwfn
    cases hch : n.children[i]? with
    | none =>
      simp only [pathKeysOfIdx, hch] at htp
      exact Option.noConfusion htp
    | some ch =>
      simp only [pathKeysOfIdx, hch] at htp hidp
      obtain ⟨tp', htp', rfl⟩ := Option.map_eq_some'.mp htp
      obtain ⟨idp', hidp', rfl⟩ := Option.map_eq_some'.mp hidp
      obtain ⟨p1, p2, p3, p4⟩ := sib_lookup n.children i ch hwfn hch
      cases is' with
      | nil =>
        have hc : ch = c := by
          rw [show findByIndexPath n.children [i] = n.children[i]? from rfl, hch] at hfind
          simpa using hfind
        have htpe : tp' = [] := by simpa [pathKeysOfIdx] using htp'.symm
        have hide : idp' = [] := by simpa [pathKeysOfIdx] using hidp'.symm
        subst hc
        subst htpe
        subst hide
        refine ⟨?_, ?_, ?_⟩
        · simp only [resolveAnyFrom]
          rw [p1]
        · simp only [resolveAnyFrom]
          rw [p2]
        · simp only [findIndexPathFrom]
          rw [p4]
          dsimp only
          rw [hch]
          rfl
      | cons j rest =>
        have hfind' : findByIndexPath ch.children (j :: rest) = some c := by
          rw [show findByIndexPath n.children (i :: j :: rest)
              = (match n.children[i]? with
                 | none => none
                 | some x => findByIndexPath x.children (j :: rest)) from rfl,
            hch] at hfind
          exact hfind
        have hwfch : wfAddrC ch = true := wfAddrL_mem n.children ch hwfn (List.getElem?_mem hch)
        obtain ⟨r1, r2, r3⟩ := ih ch c tp' idp' hwfch hfind' htp' hidp'
        refine ⟨?_, ?_, ?_⟩
        · simp only [resolveAnyFrom]
          rw [p1]
          exact r1
        · simp only [resolveAnyFrom]
          rw [p2]
          exact r2
        · simp only [findIndexPathFrom]
          rw [p4]
          dsimp only
          rw [hch]
          dsimp only
          rw [r3]
          rfl

/-- C8 (amended): in a tree whose sibling lists are address-compatible —
titles unique among direct siblings, truthy ids unique among direct
siblings, AND no sibling's truthy id equal to another sibling's title —
every node reachable by an index path is also located by resolving its
title path and its id path (ids falling back to titles), and the title
path maps back to the same index path.  Mere title-uniqueness and
id-uniqueness are not enough: an id of one sibling colliding with the
title of another hijacks the resolvers. -/
theorem path_equiv (cats : List Cat) (ip : List Nat) (c : Cat)
    (tp idp : List String)
    (hwf : wfAddrL cats = true)
    (hfind : findByIndexPath cats ip = some c)
    (htp : pathKeysOfIdx Cat.title cats ip = some tp)
    (hidp : pathKeysOfIdx catKey cats ip = some idp) :
    resolveAnyNode cats tp = some c
    ∧ resolveAnyNode cats idp = some c
    ∧ findIndexPathByTitlePath cats tp = some ip := by
  cases ip with
  | nil => simp [findByIndexPath] at hfind
  | cons i is' =>
    cases hch : cats[i]? with
    | none =>
      simp only [pathKeysOfIdx, hch] at htp
      exact Option.noConfusion htp
    | some ch =>
      simp only [pathKeysOfIdx, hch] at htp hidp
      obtain ⟨tp', htp', rfl⟩ := Option.map_eq_some'.mp htp
      obtain ⟨idp', hidp', rfl⟩ := Option.map_eq_some'.mp hidp
      obtain ⟨p1, p2, p3, p4⟩ := sib_lookup cats i ch hwf hch
      cases is' with
      | nil =>
        have hc : ch = c := by
          rw [show findByIndexPath cats [i] = cats[i]? from rfl, hch] at hfind
          simpa using hfind
        have htpe : tp' = [] := by simpa [pathKeysOfIdx] using htp'.symm
        have hide : idp' = [] := by simpa [pathKeysOfIdx] using hidp'.symm
        subst hc
        subst htpe
        subst hide
        refine ⟨?_, ?_, ?_⟩
        · simp only [resolveAnyNode]
          rw [p1]
          rfl
        · simp only [resolveAnyNode]
          rw [p2]
          rfl
        · simp only [findIndexPathByTitlePath]
          rw [p3]
          dsimp only
          rw [hch]
          rfl
      | cons j rest =>
        have hfind' : findByIndexPath ch.children (j :: rest) = some c := by
          rw [show findByIndexPath cats (i :: j :: rest)
              = (match cats[i]? with
                 | none => none
                 | some x => findByIndexPath x.children (j :: rest)) from rfl,
            hch] at hfind
          exact hfind
        have hwfch : wfAddrC ch = true := wfAddrL_mem cats ch hwf (List.getElem?_mem hch)
        obtain ⟨r1, r2, r3⟩ := pathEquiv_from (j :: rest) ch c tp' idp' hwfch hfind' htp' hidp'
        refine ⟨?_, ?_, ?_⟩
        · simp only [resolveAnyNode]
          rw [p1]
          exact r1
        · simp only [resolveAnyNode]
          rw [p2]
          exact r2
        · simp only [findIndexPathByTitlePath]
          rw [p3]
          dsimp only
          rw [hch]
          dsimp only
          rw [r3]
          rfl

/-- Witness for C8's amended form: in an address-compatible two-root tree,
the nested node at index path `[0, 0]` is found identically by its title
path `["A", "B"]` and its id path `["a", "B"]`, and the title path maps
back to `[0, 0]`. -/
theorem path_equiv_witness :
    (wfAddrL [Cat.mk "a" "A" none [] [Cat.mk "" "B" none [] []],
        Cat.mk "" "C" none [] []] = true
      ∧ findByIndexPath [Cat.mk "a" "A" none [] [Cat.mk "" "B" none [] []],
          Cat.mk "" "C" none [] []] [0, 0] = some (Cat.mk "" "B" none [] []))
    ∧ (resolveAnyNode [Cat.mk "a" "A" none [] [Cat.mk "" "B" none [] []],
          Cat.mk "" "C" none [] []] ["A", "B"] = some (Cat.mk "" "B" none [] [])
      ∧ resolveAnyNode [Cat.mk "a" "A" none [] [Cat.mk "" "B" none [] []],
          Cat.mk "" "C" none [] []] ["a", "B"] = some (Cat.mk "" "B" none [] [])
      ∧ findIndexPathByTitlePath [Cat.mk "a" "A" none [] [Cat.mk "" "B" none [] []],
          Cat.mk "" "C" none [] []] ["A", "B"] = some [0, 0]) :=
  ⟨⟨by decide, rfl⟩,
   path_equiv [Cat.mk "a" "A" none [] [Cat.mk "" "B" none [] []],
       Cat.mk "" "C" none [] []] [0, 0] (Cat.mk "" "B" none [] [])
     ["A", "B"] ["a", "B"] (by decide) rfl rfl rfl⟩

/-- Counterexample to C8 as stated: sibling titles `["y", "x"]` are unique
and the only present id `"x"` is unique, yet the id `"x"` of the first
sibling collides with the title `"x"` of the second: the node at index
path `[1]` has title path `["x"]`, but resolving `["x"]` matches the first
sibling by id and lands on the node titled `"y"`, not the indexed node. -/
theorem path_equiv_cross_collision :
    ([Cat.mk "x" "y" none [] [], Cat.mk "" "x" none [] []].map Cat.title).Nodup
    ∧ (([Cat.mk "x" "y" none [] [],
        Cat.mk "" "x" none [] []].filter idTruthy).map Cat.id).Nodup
    ∧ (findByIndexPath [Cat.mk "x" "y" none [] [],
        Cat.mk "" "x" none [] []] [1]).map Cat.title = some "x"
    ∧ pathKeysOfIdx Cat.title [Cat.mk "x" "y" none [] [],
        Cat.mk "" "x" none [] []] [1] = some ["x"]
    ∧ pathKeysOfIdx catKey [Cat.mk "x" "y" none [] [],
        Cat.mk "" "x" none [] []] [1] = some ["x"]
    ∧ (resolveAnyNode [Cat.mk "x" "y" none [] [],
        Cat.mk "" "x" none [] []] ["x"]).map Cat.title = some "y" :=
  ⟨by decide, by decide, rfl, rfl, rfl, rfl⟩

theorem ensureUncAux_cons (c : Cat) (cs : List Cat) :
    ensureUncAux (c :: cs)
      = if isUncMatch c then some (cs, normUnc c)
        else match ensureUncAux cs with
          | none => none
          | some (rest, u) => some (c :: rest, u) := rfl

theorem ensureUncAux_match (cats : List Cat) : ∀ rest u,
    ensureUncAux cats = some (rest, u) →
    ∃ c, isUncMatch c = true ∧ u = normUnc c := by
  induction cats with
  | nil => intro rest u h; cases h
  | cons c cs ih =>
    intro rest u h
    rw [ensureUncAux_cons] at h
    by_cases hm : isUncMatch c = true
    · rw [if_pos hm] at h
      injection h with h'
      injection h' with h1 h2
      exact ⟨c, hm, h2.symm⟩
    · rw [if_neg hm] at h
      cases haux : ensureUncAux cs with
      | none => rw [haux] at h; cases h
      | some p =>
        obtain ⟨rest', u'⟩ := p
        rw [haux] at h
        injection h with h'
        injection h' with h1 h2
        obtain ⟨c', hc1, hc2⟩ := ih rest' u' haux
        exact ⟨c', hc1, h2 ▸ hc2⟩

theorem normUnc_invariant (c : Cat) (hm : isUncMatch c = true) :
    (isUncMatch (normUnc c) && !((normUnc c).id == "")
      && !((normUnc c).title == "") && (normUnc c).icon.isSome) = true := by
  have hid : (normUnc c).id = jsOr c.id "uncategorized" := rfl
  have hti : (normUnc c).title = jsOr c.title "未分类" := rfl
  have hic : (normUnc c).icon = some (c.icon.getD "📁") := rfl
  have h1 : (!((normUnc c).id == "")) = true := by
    rw [hid]
    by_cases h : c.id = "" <;> simp [jsOr, h]
  have h2 : (!((normUnc c).title == "")) = true := by
    rw [hti]
    by_cases h : c.title = "" <;> simp [jsOr, h]
  have h3 : (normUnc c).icon.isSome = true := by rw [hic]; rfl
  have h0 : isUncMatch (normUnc c) = true := by
    unfold isUncMatch at hm ⊢
    rw [hid, hti]
    rcases Bool.or_eq_true_iff.mp hm with hl | hr
    · have : c.id = "uncategorized" := eq_of_beq hl
      rw [Bool.or_eq_true_iff]
      left
      simp [jsOr, this]
    · have : c.title = "未分类" := eq_of_beq hr
      rw [Bool.or_eq_true_iff]
      right
      simp [jsOr, this]
  rw [h0, h1, h2, h3]
  rfl

/-- C9 (amended): the `ensureUncategorized` pass always yields a root list
whose LAST element is the reserved category — present (created if absent),
with truthy id and title and an `icon` value — and the save paths that
persist a normalised snapshot (a stored tree exists and structure differs)
write exactly that list.  The first-initialization path, however, persists
the raw incoming payload without running the provisioning, so a first write
need not contain the reserved category at all. -/
theorem unc_provisioning (cats cur inc : List Cat)
    (hdiff : sameStructL cur (ensureUncategorized inc) = false) :
    uncInvariant (ensureUncategorized cats) = true
    ∧ saveAdminWrite (some cur) inc = some (ensureUncategorized inc) := by
  constructor
  · unfold ensureUncategorized
    cases haux : ensureUncAux cats with
    | none =>
      unfold uncInvariant
      rw [List.getLast?_concat]
      rfl
    | some p =>
      obtain ⟨rest, u⟩ := p
      obtain ⟨c, hc1, hc2⟩ := ensureUncAux_match cats rest u haux
      unfold uncInvariant
      rw [List.getLast?_concat]
      dsimp only
      rw [hc2]
      exact normUnc_invariant c hc1
  · simp [saveAdminWrite, hdiff]

/-- Witness for C9's amended form: saving a one-category payload over an
empty stored tree persists the normalised list, whose last element is the
freshly created reserved category. -/
theorem unc_provisioning_witness :
    sameStructL [] (ensureUncategorized [Cat.mk "dev" "Dev" none [] []]) = false
    ∧ (uncInvariant (ensureUncategorized [Cat.mk "dev" "Dev" none [] []]) = true
      ∧ saveAdminWrite (some []) [Cat.mk "dev" "Dev" none [] []]
        = some (ensureUncategorized [Cat.mk "dev" "Dev" none [] []])) :=
  ⟨rfl, unc_provisioning [Cat.mk "dev" "Dev" none [] []] []
    [Cat.mk "dev" "Dev" none [] []] rfl⟩

/-- Counterexample to C9 as stated: the very first save (no stored tree)
persists the raw payload as-is — no reserved category is created, so the
persisted root list does not contain it, let alone as its normalised last
element. -/
theorem unc_not_established_on_first_write :
    saveAdminWrite none [Cat.mk "dev" "Dev" none [] []]
      = some [Cat.mk "dev" "Dev" none [] []]
    ∧ containsUnc [Cat.mk "dev" "Dev" none [] []] = false
    ∧ uncInvariant [Cat.mk "dev" "Dev" none [] []] = false :=
  ⟨rfl, rfl, rfl⟩

end Nav
